import Mathlib

/-!
Verification development for the PRESENT block cipher implementation
(`src/present.c`, with the build configuration fixed by `conf/conf.h`:
`PRESENT_USE_KEY80 = 1`, `PRESENT_ROUND_COUNT = 31`).

Byte buffers (`uint8_t *`) are modelled as `List Nat`; reading byte `i`
of buffer `p` is `byt p i`.  Every C store into a `uint8_t` object is
modelled with an explicit reduction modulo 2^8 (the implicit conversion
performed by the C assignment), and every store into a `uint16_t` object
with a reduction modulo 2^16.  All preprocessor constants are instantiated
at their configured values.
-/

namespace Present

/-- `PRESENT_CRYPT_SIZE` (= `PRESENT_CRYPT_BIT_SIZE / 8` = 8). -/
def PRESENT_CRYPT_SIZE : Nat := 8

/-- `PRESENT_KEY_SIZE` (= `PRESENT_KEY_BIT_SIZE / 8` = 10 for the 80-bit key). -/
def PRESENT_KEY_SIZE : Nat := 10

/-- `PRESENT_ROUND_COUNT` as configured in `conf/conf.h`. -/
def PRESENT_ROUND_COUNT : Nat := 31

/-- `PRESENT_ROUND_COUNT_MIN` from `include/present.h`. -/
def PRESENT_ROUND_COUNT_MIN : Nat := 1

/-- `PRESENT_ROUND_COUNT_MAX` from `include/present.h`. -/
def PRESENT_ROUND_COUNT_MAX : Nat := 31

/-- `PRESENT_KEY_OFFSET` (= `PRESENT_KEY_SIZE - PRESENT_CRYPT_SIZE` = 2). -/
def PRESENT_KEY_OFFSET : Nat := PRESENT_KEY_SIZE - PRESENT_CRYPT_SIZE

/-- `PRESENT_KEY_BLOCK_SIZE` (= `PRESENT_KEY_BIT_SIZE / 16` = 5). -/
def PRESENT_KEY_BLOCK_SIZE : Nat := 5

/-- Byte `i` of buffer `p` (out-of-range reads yield 0; all verified calls
stay in range). -/
def byt (p : List Nat) (i : Nat) : Nat := p.getD i 0

/-- Macro `BIT(x)` from `lib/include/macros.h`: `1u << (x)`. -/
def BIT (x : Nat) : Nat := 1 <<< x

/-- Macro `BITVAL(var, bit)` from `lib/include/macros.h`:
`((var) & BIT(bit)) >> (bit)`. -/
def BITVAL (var bit : Nat) : Nat := (var &&& BIT bit) >>> bit

/-- Lookup table `g_sbox` of the substitution process. -/
def g_sbox : List Nat :=
  [0x0C, 0x05, 0x06, 0x0B, 0x09, 0x00, 0x0A, 0x0D,
   0x03, 0x0E, 0x0F, 0x08, 0x04, 0x07, 0x01, 0x02]

/-- Lookup table `g_sbox_inv` of the inverse substitution process. -/
def g_sbox_inv : List Nat :=
  [0x05, 0x0E, 0x0F, 0x08, 0x0C, 0x01, 0x02, 0x0D,
   0x0B, 0x04, 0x06, 0x03, 0x00, 0x07, 0x09, 0x0A]

/-- Table read `p_sbox[n]`. -/
def sbox_lookup (p_sbox : List Nat) (n : Nat) : Nat := p_sbox.getD n 0

/-- The `present_op_t` enumeration. -/
inductive present_op_t where
  | PRESENT_OP_ENCRYPT
  | PRESENT_OP_DECRYPT

open present_op_t

/-- `present_add_key`: after `p_key += PRESENT_KEY_OFFSET`, each text byte is
`p_text[byte_idx] ^ p_key[byte_idx]`. -/
def present_add_key (p_text p_key : List Nat) : List Nat :=
  (List.range PRESENT_CRYPT_SIZE).map fun byte_idx =>
    (byt p_text byte_idx ^^^ byt p_key (PRESENT_KEY_OFFSET + byte_idx)) % 256

/-- Loop body of `present_substitution` for one text byte: look up the high
and the low nibble and reassemble. -/
def present_substitution_byte (p_sbox : List Nat) (b : Nat) : Nat :=
  let high_nibble := sbox_lookup p_sbox ((b &&& 0xF0) >>> 4)
  let low_nibble := sbox_lookup p_sbox (b &&& 0x0F)
  ((high_nibble <<< 4) ||| low_nibble) % 256

/-- `present_substitution`: choose `g_sbox` or `g_sbox_inv` by `op`, then
replace every byte of the text block. -/
def present_substitution (p_text : List Nat) (op : present_op_t) : List Nat :=
  let p_sbox := match op with
    | PRESENT_OP_ENCRYPT => g_sbox
    | PRESENT_OP_DECRYPT => g_sbox_inv
  p_text.map (present_substitution_byte p_sbox)

/-- `present_encrypt_permutation`.  In the C loop, at iteration `bit_idx` the
running index variables hold `base_byte = bit_idx / 2` and
`base_bit = 4 * (bit_idx % 2)`; the eight `buff[...] |= ...` lines give
output byte `o` (for `o = 0, ..., 7`) the bit
`BITVAL(p_text[base_byte + 4 * (o % 2)], base_bit + o / 2) << bit_idx`. -/
def present_encrypt_permutation (p_text : List Nat) : List Nat :=
  (List.range PRESENT_CRYPT_SIZE).map fun o =>
    (List.range PRESENT_CRYPT_SIZE).foldl
      (fun buff bit_idx =>
        (buff |||
          (BITVAL (byt p_text (bit_idx / 2 + 4 * (o % 2)))
              (4 * (bit_idx % 2) + o / 2) <<< bit_idx)) % 256)
      0

/-- `present_decrypt_permutation`.  In the C loop, at iteration `bit_idx` the
running index variables hold `base_byte = 2 * (bit_idx % 4)` and
`base_bit = bit_idx / 4`; the eight `buff[...] |= ...` lines give output
byte `o` the bit
`BITVAL(p_text[base_byte + o / 4], base_bit + 2 * (o % 4)) << bit_idx`. -/
def present_decrypt_permutation (p_text : List Nat) : List Nat :=
  (List.range PRESENT_CRYPT_SIZE).map fun o =>
    (List.range PRESENT_CRYPT_SIZE).foldl
      (fun buff bit_idx =>
        (buff |||
          (BITVAL (byt p_text (2 * (bit_idx % 4) + o / 4))
              (bit_idx / 4 + 2 * (o % 4)) <<< bit_idx)) % 256)
      0

/-- `present_permutation`: dispatch on the operation type. -/
def present_permutation (p_text : List Nat) (op : present_op_t) : List Nat :=
  match op with
  | PRESENT_OP_ENCRYPT => present_encrypt_permutation p_text
  | PRESENT_OP_DECRYPT => present_decrypt_permutation p_text

/-- Little-endian load of 16-bit block `i` of the key buffer (the C code
reads the buffer through its `uint16_t *` cast `p_block`). -/
def key_block (p_key : List Nat) (i : Nat) : Nat :=
  byt p_key (2 * i) ||| (byt p_key (2 * i + 1) <<< 8)

/-- Little-endian store of the five 16-bit blocks back into the ten key
bytes. -/
def key_bytes_of_blocks (b0 b1 b2 b3 b4 : Nat) : List Nat :=
  [b0 % 256, (b0 >>> 8) % 256, b1 % 256, (b1 >>> 8) % 256,
   b2 % 256, (b2 >>> 8) % 256, b3 % 256, (b3 >>> 8) % 256,
   b4 % 256, (b4 >>> 8) % 256]

/-- `present_rotate_key_left` (80-bit configuration: rotation point 3,
lsb offset 2, msb offset 1, one unrotated block).  The first C loop stores
blocks 0 and 1 in `buff` before anything is overwritten; the second loop
computes blocks 0..2 from still-unmodified blocks 1..4, the rotation point
assignment computes block 3 from `buff[0]` and the still-unmodified block 4,
and the last loop computes block 4 from `buff[1]` and `buff[0]`.  So every
new block is a function of the original block values. -/
def present_rotate_key_left (p_key : List Nat) : List Nat :=
  let B0 := key_block p_key 0
  let B1 := key_block p_key 1
  let B2 := key_block p_key 2
  let B3 := key_block p_key 3
  let B4 := key_block p_key 4
  key_bytes_of_blocks
    (((B2 <<< 13) ||| (B1 >>> 3)) % 65536)
    (((B3 <<< 13) ||| (B2 >>> 3)) % 65536)
    (((B4 <<< 13) ||| (B3 >>> 3)) % 65536)
    (((B0 <<< 13) ||| (B4 >>> 3)) % 65536)
    (((B1 <<< 13) ||| (B0 >>> 3)) % 65536)

/-- `present_rotate_key_right` (80-bit configuration: rotation point 1,
three unrotated blocks, place offset 2).  As for the left rotation, the
buffered blocks 0..3 and the ordering of the stores make every new block a
function of the original block values. -/
def present_rotate_key_right (p_key : List Nat) : List Nat :=
  let B0 := key_block p_key 0
  let B1 := key_block p_key 1
  let B2 := key_block p_key 2
  let B3 := key_block p_key 3
  let B4 := key_block p_key 4
  key_bytes_of_blocks
    (((B4 <<< 3) ||| (B3 >>> 13)) % 65536)
    (((B0 <<< 3) ||| (B4 >>> 13)) % 65536)
    (((B1 <<< 3) ||| (B0 >>> 13)) % 65536)
    (((B2 <<< 3) ||| (B1 >>> 13)) % 65536)
    (((B3 <<< 3) ||| (B2 >>> 13)) % 65536)

/-- `present_update_encrypt_key` (80-bit configuration): rotate left, apply
`g_sbox` to the MSB high nibble, then `p_key[2] ^= round_counter >> 1;`
`p_key[1] ^= round_counter << 7;`. -/
def present_update_encrypt_key (p_key : List Nat) (round_counter : Nat) : List Nat :=
  let k1 := present_rotate_key_left p_key
  let high_nibble := sbox_lookup g_sbox ((byt k1 (PRESENT_KEY_SIZE - 1) &&& 0xF0) >>> 4)
  let low_nibble := byt k1 (PRESENT_KEY_SIZE - 1) &&& 0x0F
  let k2 := k1.set (PRESENT_KEY_SIZE - 1) (((high_nibble <<< 4) ||| low_nibble) % 256)
  let k3 := k2.set 2 ((byt k2 2 ^^^ (round_counter >>> 1)) % 256)
  k3.set 1 ((byt k3 1 ^^^ (round_counter <<< 7)) % 256)

/-- `present_update_decrypt_key` (80-bit configuration): undo the counter
XOR, apply `g_sbox_inv` to the MSB high nibble, then rotate right. -/
def present_update_decrypt_key (p_key : List Nat) (round_counter : Nat) : List Nat :=
  let k1 := p_key.set 2 ((byt p_key 2 ^^^ (round_counter >>> 1)) % 256)
  let k2 := k1.set 1 ((byt k1 1 ^^^ (round_counter <<< 7)) % 256)
  let high_nibble := sbox_lookup g_sbox_inv ((byt k2 (PRESENT_KEY_SIZE - 1) &&& 0xF0) >>> 4)
  let low_nibble := byt k2 (PRESENT_KEY_SIZE - 1) &&& 0x0F
  let k3 := k2.set (PRESENT_KEY_SIZE - 1) (((high_nibble <<< 4) ||| low_nibble) % 256)
  present_rotate_key_right k3

/-- `present_update_key`: dispatch on the operation type. -/
def present_update_key (p_key : List Nat) (round_counter : Nat) (op : present_op_t) : List Nat :=
  match op with
  | PRESENT_OP_ENCRYPT => present_update_encrypt_key p_key round_counter
  | PRESENT_OP_DECRYPT => present_update_decrypt_key p_key round_counter

/-- Main loop of `present_encrypt`: `n` remaining iterations, current round
counter `round` (the C loop runs `round = 1` up to `PRESENT_ROUND_COUNT`). -/
def present_encrypt_loop : Nat → Nat → List Nat → List Nat → List Nat × List Nat
  | 0, _, p_text, subkey => (p_text, subkey)
  | n + 1, round, p_text, subkey =>
      let t1 := present_add_key p_text subkey
      let t2 := present_substitution t1 PRESENT_OP_ENCRYPT
      let t3 := present_permutation t2 PRESENT_OP_ENCRYPT
      let k1 := present_update_key subkey round PRESENT_OP_ENCRYPT
      present_encrypt_loop n (round + 1) t3 k1

/-- `present_encrypt`: copy the key into `subkey`, run the main loop from
round 1, then add the last subkey. -/
def present_encrypt (p_text p_key : List Nat) : List Nat :=
  let r := present_encrypt_loop PRESENT_ROUND_COUNT 1 p_text p_key
  present_add_key r.1 r.2

/-- Loop of `present_generate_decrypt_key`: apply the encryption key update
for rounds `round` up to `round + n - 1`. -/
def present_key_schedule : Nat → Nat → List Nat → List Nat
  | 0, _, p_key => p_key
  | n + 1, round, p_key =>
      present_key_schedule n (round + 1) (present_update_key p_key round PRESENT_OP_ENCRYPT)

/-- `present_generate_decrypt_key`: update the key once per round, with the
encryption schedule, for rounds 1 up to `PRESENT_ROUND_COUNT`. -/
def present_generate_decrypt_key (p_key : List Nat) : List Nat :=
  present_key_schedule PRESENT_ROUND_COUNT 1 p_key

/-- Main loop of `present_decrypt`: `n` remaining iterations with the round
counter walking from `base + n - 1` down to `base` (the C loop runs `round =
PRESENT_ROUND_COUNT` down to 1, so it is `present_decrypt_loop`
`PRESENT_ROUND_COUNT 1`). -/
def present_decrypt_loop : Nat → Nat → List Nat → List Nat → List Nat × List Nat
  | 0, _, p_text, subkey => (p_text, subkey)
  | n + 1, base, p_text, subkey =>
      let t1 := present_permutation p_text PRESENT_OP_DECRYPT
      let t2 := present_substitution t1 PRESENT_OP_DECRYPT
      let k1 := present_update_key subkey (base + n) PRESENT_OP_DECRYPT
      let t3 := present_add_key t2 k1
      present_decrypt_loop n base t3 k1

/-- `present_decrypt`: copy the key into `subkey`, generate the decryption
key, add it, then run the main loop from round `PRESENT_ROUND_COUNT` down
to 1. -/
def present_decrypt (p_text p_key : List Nat) : List Nat :=
  let subkey := present_generate_decrypt_key p_key
  let t0 := present_add_key p_text subkey
  (present_decrypt_loop PRESENT_ROUND_COUNT 1 t0 subkey).1

/-- Well-formed buffer of `n` bytes: the buffer a caller hands to the core
(`n` `uint8_t` objects). -/
def ValidBuf (n : Nat) (p : List Nat) : Prop :=
  p.length = n ∧ ∀ b ∈ p, b < 256

/-- Bit `i` of the 64-bit state held in 8 little-endian bytes (bit 0 is the
LSB of byte 0, bit 63 the MSB of byte 7). -/
def stateBit (s : List Nat) (i : Nat) : Bool := (byt s (i / 8)).testBit (i % 8)

/-- Input position feeding output bit `i` of `present_encrypt_permutation`:
output byte `o = i / 8` takes its bit `j = i % 8` from byte
`j / 2 + 4 * (o % 2)`, bit `4 * (j % 2) + o / 2` of the input. -/
def encSrc (i : Nat) : Nat :=
  8 * ((i % 8) / 2 + 4 * ((i / 8) % 2)) + (4 * ((i % 8) % 2) + (i / 8) / 2)

/-- Input position feeding output bit `i` of `present_decrypt_permutation`:
output byte `o = i / 8` takes its bit `j = i % 8` from byte
`2 * (j % 4) + o / 4`, bit `j / 4 + 2 * (o % 4)` of the input. -/
def decSrc (i : Nat) : Nat :=
  8 * (2 * ((i % 8) % 4) + (i / 8) / 4) + ((i % 8) / 4 + 2 * ((i / 8) % 4))

/-- Contract permutation of the spec: `P(i) = (16 i) mod 63` for `i < 63`
and `P(63) = 63`. -/
def P_enc (i : Nat) : Nat := if i = 63 then 63 else 16 * i % 63

/-- Contract inverse permutation of the spec: `(4 j) mod 63` for `j < 63`
and fixed point 63. -/
def P_dec (i : Nat) : Nat := if i = 63 then 63 else 4 * i % 63

/-- Integer value of the 80-bit key register held in the ten little-endian
key bytes (spec view of the buffer). -/
def keyVal (p : List Nat) : Nat :=
  byt p 0 + 2 ^ 8 * byt p 1 + 2 ^ 16 * byt p 2 + 2 ^ 24 * byt p 3 +
  2 ^ 32 * byt p 4 + 2 ^ 40 * byt p 5 + 2 ^ 48 * byt p 6 + 2 ^ 56 * byt p 7 +
  2 ^ 64 * byt p 8 + 2 ^ 72 * byt p 9

/-- MSB-nibble substitution statements of the key update, as a standalone
step (used to state the order of operations of the schedule). -/
def key_sbox_step (p_sbox : List Nat) (p_key : List Nat) : List Nat :=
  let high_nibble := sbox_lookup p_sbox ((byt p_key (PRESENT_KEY_SIZE - 1) &&& 0xF0) >>> 4)
  let low_nibble := byt p_key (PRESENT_KEY_SIZE - 1) &&& 0x0F
  p_key.set (PRESENT_KEY_SIZE - 1) (((high_nibble <<< 4) ||| low_nibble) % 256)

/-- Round-counter XOR statements of the key update:
`p_key[2] ^= round_counter >> 1; p_key[1] ^= round_counter << 7;`. -/
def key_xor_step (p_key : List Nat) (round_counter : Nat) : List Nat :=
  let k1 := p_key.set 2 ((byt p_key 2 ^^^ (round_counter >>> 1)) % 256)
  k1.set 1 ((byt k1 1 ^^^ (round_counter <<< 7)) % 256)

/-- Memory footprint of one `present_encrypt`/`present_decrypt` call: the
caller's text buffer, the caller's (const) key buffer, and the callee's
stack-local `subkey` buffer.  Each C statement of the call writes exactly
one of the three buffers, so each translated statement updates exactly one
field. -/
structure present_call_mem where
  text : List Nat
  key : List Nat
  subkey : List Nat

/-- Main loop of `present_encrypt` at the memory level: the three layer
calls write the text block, `present_update_key` writes the subkey buffer;
no statement writes the key buffer (`p_key` is `uint8_t const *`). -/
def present_encrypt_loop_mem : Nat → Nat → present_call_mem → present_call_mem
  | 0, _, m => m
  | n + 1, round, m =>
      let m1 := { m with text := present_add_key m.text m.subkey }
      let m2 := { m1 with text := present_substitution m1.text PRESENT_OP_ENCRYPT }
      let m3 := { m2 with text := present_permutation m2.text PRESENT_OP_ENCRYPT }
      let m4 := { m3 with subkey := present_update_key m3.subkey round PRESENT_OP_ENCRYPT }
      present_encrypt_loop_mem n (round + 1) m4

/-- `present_encrypt` at the memory level: `memcpy(subkey, p_key,
PRESENT_KEY_SIZE)` initialises the local buffer, the main loop runs from
round 1, and the final whitening writes the text block. -/
def present_encrypt_mem (p_text p_key : List Nat) : present_call_mem :=
  let m0 : present_call_mem := { text := p_text, key := p_key, subkey := p_key }
  let m1 := present_encrypt_loop_mem PRESENT_ROUND_COUNT 1 m0
  { m1 with text := present_add_key m1.text m1.subkey }

/-- Main loop of `present_decrypt` at the memory level. -/
def present_decrypt_loop_mem : Nat → Nat → present_call_mem → present_call_mem
  | 0, _, m => m
  | n + 1, base, m =>
      let m1 := { m with text := present_permutation m.text PRESENT_OP_DECRYPT }
      let m2 := { m1 with text := present_substitution m1.text PRESENT_OP_DECRYPT }
      let m3 := { m2 with subkey := present_update_key m2.subkey (base + n) PRESENT_OP_DECRYPT }
      let m4 := { m3 with text := present_add_key m3.text m3.subkey }
      present_decrypt_loop_mem n base m4

/-- `present_decrypt` at the memory level: copy the key into the local
subkey buffer, generate the decryption key in place, add it to the text
block, then run the main loop from round `PRESENT_ROUND_COUNT` down to 1. -/
def present_decrypt_mem (p_text p_key : List Nat) : present_call_mem :=
  let m0 : present_call_mem := { text := p_text, key := p_key, subkey := p_key }
  let m1 := { m0 with subkey := present_generate_decrypt_key m0.subkey }
  let m2 := { m1 with text := present_add_key m1.text m1.subkey }
  present_decrypt_loop_mem PRESENT_ROUND_COUNT 1 m2

/-- ISO C preprocessing directives relevant to the round-count guards of
`src/present.c` (lines 68-74): the `#error` directive, whose execution in
an active conditional group is guaranteed to end the translation with a
diagnostic, and a non-directive (a `#` line whose name matches no
directive, C11 6.10 — executing one is undefined behaviour, with no
guarantee that the translation unit is rejected). -/
inductive pp_directive where
  | pp_error
  | pp_non_directive

/-- The directive spelled inside both round-count guards of
`src/present.c` (lines 69 and 73) is `#errror`, a misspelling of `#error`,
hence a non-directive. -/
def round_count_guard_directive : pp_directive := pp_directive.pp_non_directive

/-- A conditionally-guarded directive is guaranteed (by ISO C) to reject
the translation unit iff its guard condition is active and the directive
is `#error`. -/
def directive_rejects (active : Bool) (d : pp_directive) : Bool :=
  active &&
    (match d with
     | pp_directive.pp_error => true
     | pp_directive.pp_non_directive => false)

/-- Whether a configured `PRESENT_ROUND_COUNT` is guaranteed to be
rejected at translation time by the two guards
`#if (PRESENT_ROUND_COUNT < PRESENT_ROUND_COUNT_MIN)` and
`#if (PRESENT_ROUND_COUNT > PRESENT_ROUND_COUNT_MAX)` of `src/present.c`,
both of whose bodies spell the directive `#errror`. -/
def present_round_count_rejected (round_count : Nat) : Bool :=
  directive_rejects (decide (round_count < PRESENT_ROUND_COUNT_MIN))
      round_count_guard_directive ||
    directive_rejects (decide (round_count > PRESENT_ROUND_COUNT_MAX))
      round_count_guard_directive

end Present

/-!
Second source variant: `lib/src/present.c`.  It implements only
`present_encrypt`, always with the 80-bit key, with a local
`PRESENT_ROUND_COUNT` of 31, a single S-box table, and no operation
dispatch.  The shared macros (`BITVAL`, buffer sizes, key offset) come from
the same headers as the first variant.
-/

namespace PresentLib

open Present present_op_t

/-- `PRESENT_ROUND_COUNT` as defined locally in `lib/src/present.c`. -/
def PRESENT_ROUND_COUNT : Nat := 31

/-- Lookup table `g_sbox` of `lib/src/present.c`. -/
def g_sbox : List Nat :=
  [0x0C, 0x05, 0x06, 0x0B, 0x09, 0x00, 0x0A, 0x0D,
   0x03, 0x0E, 0x0F, 0x08, 0x04, 0x07, 0x01, 0x02]

/-- `present_add_key` of `lib/src/present.c` (textually the same loop as in
`src/present.c`). -/
def present_add_key (p_text p_key : List Nat) : List Nat :=
  (List.range PRESENT_CRYPT_SIZE).map fun byte_idx =>
    (byt p_text byte_idx ^^^ byt p_key (PRESENT_KEY_OFFSET + byte_idx)) % 256

/-- `present_substitution` of `lib/src/present.c`: always the forward
S-box, applied to the high and the low nibble of every byte. -/
def present_substitution (p_text : List Nat) : List Nat :=
  p_text.map fun b =>
    let high_nibble := sbox_lookup g_sbox ((b &&& 0xF0) >>> 4)
    let low_nibble := sbox_lookup g_sbox (b &&& 0x0F)
    ((high_nibble <<< 4) ||| low_nibble) % 256

/-- `present_permutation` of `lib/src/present.c`: textually the same loop
as `present_encrypt_permutation` of `src/present.c` (same eight
`buff[...] |=` lines, same `base_bit`/`base_byte` updates). -/
def present_permutation (p_text : List Nat) : List Nat :=
  (List.range PRESENT_CRYPT_SIZE).map fun o =>
    (List.range PRESENT_CRYPT_SIZE).foldl
      (fun buff bit_idx =>
        (buff |||
          (BITVAL (byt p_text (bit_idx / 2 + 4 * (o % 2)))
              (4 * (bit_idx % 2) + o / 2) <<< bit_idx)) % 256)
      0

/-- `present_rotate_key_left` of `lib/src/present.c` (same constants and
same statements as the 80-bit path of `src/present.c`). -/
def present_rotate_key_left (p_key : List Nat) : List Nat :=
  let B0 := key_block p_key 0
  let B1 := key_block p_key 1
  let B2 := key_block p_key 2
  let B3 := key_block p_key 3
  let B4 := key_block p_key 4
  key_bytes_of_blocks
    (((B2 <<< 13) ||| (B1 >>> 3)) % 65536)
    (((B3 <<< 13) ||| (B2 >>> 3)) % 65536)
    (((B4 <<< 13) ||| (B3 >>> 3)) % 65536)
    (((B0 <<< 13) ||| (B4 >>> 3)) % 65536)
    (((B1 <<< 13) ||| (B0 >>> 3)) % 65536)

/-- `present_update_key` of `lib/src/present.c`: rotate left, substitute
the MSB high nibble, XOR the round counter (80-bit path only). -/
def present_update_key (p_key : List Nat) (round_counter : Nat) : List Nat :=
  let k1 := present_rotate_key_left p_key
  let high_nibble := sbox_lookup g_sbox ((byt k1 (PRESENT_KEY_SIZE - 1) &&& 0xF0) >>> 4)
  let low_nibble := byt k1 (PRESENT_KEY_SIZE - 1) &&& 0x0F
  let k2 := k1.set (PRESENT_KEY_SIZE - 1) (((high_nibble <<< 4) ||| low_nibble) % 256)
  let k3 := k2.set 2 ((byt k2 2 ^^^ (round_counter >>> 1)) % 256)
  k3.set 1 ((byt k3 1 ^^^ (round_counter <<< 7)) % 256)

/-- Main loop of `present_encrypt` of `lib/src/present.c`. -/
def present_encrypt_loop : Nat → Nat → List Nat → List Nat → List Nat × List Nat
  | 0, _, p_text, subkey => (p_text, subkey)
  | n + 1, round, p_text, subkey =>
      let t1 := present_add_key p_text subkey
      let t2 := present_substitution t1
      let t3 := present_permutation t2
      let k1 := present_update_key subkey round
      present_encrypt_loop n (round + 1) t3 k1

/-- `present_encrypt` of `lib/src/present.c`. -/
def present_encrypt (p_text p_key : List Nat) : List Nat :=
  let r := present_encrypt_loop PRESENT_ROUND_COUNT 1 p_text p_key
  present_add_key r.1 r.2

end PresentLib

namespace Present

open present_op_t

theorem byt_eq_getElem {p : List Nat} {i : Nat} (h : i < p.length) : byt p i = p[i] := by
  simp [byt, List.getD_eq_getElem?_getD, List.getElem?_eq_getElem h]

theorem byt_lt {n : Nat} {p : List Nat} (hp : ValidBuf n p) (i : Nat) : byt p i < 256 := by
  rcases hp with ⟨hlen, hmem⟩
  by_cases h : i < p.length
  · rw [byt_eq_getElem h]
    exact hmem _ (p.getElem_mem h)
  · have : byt p i = 0 := by
      simp [byt, List.getD_eq_getElem?_getD, List.getElem?_eq_none (by omega : p.length ≤ i)]
    omega

theorem byt_map_range {f : Nat → Nat} {n i : Nat} (h : i < n) :
    byt ((List.range n).map f) i = f i := by
  have h' : i < ((List.range n).map f).length := by simpa using h
  rw [byt_eq_getElem h']
  simp

theorem list_eq_map_byt {p : List Nat} {n : Nat} (h : p.length = n) :
    (List.range n).map (byt p) = p := by
  apply List.ext_getElem
  · simp [h]
  · intro i h1 h2
    simp [byt_eq_getElem h2]

theorem lor_eq_add {n : Nat} (a b : Nat) (hb : b < 2 ^ n) :
    (a <<< n) ||| b = a * 2 ^ n + b := by
  rw [Nat.shiftLeft_eq]
  rw [show a * 2 ^ n = 2 ^ n * a from Nat.mul_comm ..]
  rw [← Nat.mul_add_lt_is_or hb]

theorem xor_mod_cancel {b : Nat} (t : Nat) (hb : b < 256) :
    ((b ^^^ t) % 256 ^^^ t) % 256 = b := by
  have h256 : (256 : Nat) = 2 ^ 8 := by norm_num
  rw [h256]
  apply Nat.eq_of_testBit_eq
  intro i
  rcases Nat.lt_or_ge i 8 with h | h
  · simp only [Nat.testBit_mod_two_pow, Nat.testBit_xor]
    cases hbt : b.testBit i <;> cases htt : t.testBit i <;> simp [h, hbt, htt]
  · have hbi : b.testBit i = false :=
      Nat.testBit_lt_two_pow (lt_of_lt_of_le hb (by
        calc (256 : Nat) = 2 ^ 8 := by norm_num
          _ ≤ 2 ^ i := Nat.pow_le_pow_right (by norm_num) h))
    simp only [Nat.testBit_mod_two_pow, hbi]
    simp [show ¬i < 8 from Nat.not_lt.mpr h]

theorem BITVAL_eq (v b : Nat) : BITVAL v b = v / 2 ^ b % 2 := by
  rw [BITVAL, BIT, Nat.one_shiftLeft, Nat.and_two_pow, Nat.shiftRight_eq_div_pow,
    Nat.mul_div_cancel _ (Nat.two_pow_pos b), Nat.toNat_testBit]

theorem BITVAL_le_one (v b : Nat) : BITVAL v b ≤ 1 := by
  rw [BITVAL_eq]
  omega

theorem or_bit_step {acc b j : Nat} (hj : j < 8) (ha : acc < 2 ^ j) (hb : b ≤ 1) :
    (acc ||| (b <<< j)) % 256 = acc + b * 2 ^ j := by
  rw [Nat.lor_comm, lor_eq_add b acc ha]
  have h2 : (2 : Nat) ^ j ≤ 128 := by
    calc (2 : Nat) ^ j ≤ 2 ^ 7 := Nat.pow_le_pow_right (by norm_num) (by omega)
      _ = 128 := by norm_num
  have h3 : b * 2 ^ j ≤ 2 ^ j := by
    calc b * 2 ^ j ≤ 1 * 2 ^ j := Nat.mul_le_mul_right _ hb
      _ = 2 ^ j := Nat.one_mul _
  omega

theorem perm_fold_eq (f : Nat → Nat) (hf : ∀ j, f j ≤ 1) :
    (List.range 8).foldl (fun buff j => (buff ||| (f j <<< j)) % 256) 0 =
      f 0 + f 1 * 2 + f 2 * 4 + f 3 * 8 + f 4 * 16 + f 5 * 32 + f 6 * 64 + f 7 * 128 := by
  have h0 := hf 0
  have h1 := hf 1
  have h2 := hf 2
  have h3 := hf 3
  have h4 := hf 4
  have h5 := hf 5
  have h6 := hf 6
  have h7 := hf 7
  rw [show List.range 8 = [0, 1, 2, 3, 4, 5, 6, 7] from rfl]
  simp only [List.foldl]
  rw [or_bit_step (by norm_num) (by norm_num) h0]
  rw [or_bit_step (by norm_num) (by omega) h1]
  rw [or_bit_step (by norm_num) (by omega) h2]
  rw [or_bit_step (by norm_num) (by omega) h3]
  rw [or_bit_step (by norm_num) (by omega) h4]
  rw [or_bit_step (by norm_num) (by omega) h5]
  rw [or_bit_step (by norm_num) (by omega) h6]
  rw [or_bit_step (by norm_num) (by omega) h7]
  omega

theorem encPerm_byte_sum (p_text : List Nat) {o : Nat} (ho : o < 8) :
    byt (present_encrypt_permutation p_text) o =
      BITVAL (byt p_text (0 / 2 + 4 * (o % 2))) (4 * (0 % 2) + o / 2) +
      BITVAL (byt p_text (1 / 2 + 4 * (o % 2))) (4 * (1 % 2) + o / 2) * 2 +
      BITVAL (byt p_text (2 / 2 + 4 * (o % 2))) (4 * (2 % 2) + o / 2) * 4 +
      BITVAL (byt p_text (3 / 2 + 4 * (o % 2))) (4 * (3 % 2) + o / 2) * 8 +
      BITVAL (byt p_text (4 / 2 + 4 * (o % 2))) (4 * (4 % 2) + o / 2) * 16 +
      BITVAL (byt p_text (5 / 2 + 4 * (o % 2))) (4 * (5 % 2) + o / 2) * 32 +
      BITVAL (byt p_text (6 / 2 + 4 * (o % 2))) (4 * (6 % 2) + o / 2) * 64 +
      BITVAL (byt p_text (7 / 2 + 4 * (o % 2))) (4 * (7 % 2) + o / 2) * 128 := by
  simp only [present_encrypt_permutation, PRESENT_CRYPT_SIZE]
  rw [byt_map_range ho]
  exact perm_fold_eq _ (fun j => BITVAL_le_one _ _)

theorem decPerm_byte_sum (p_text : List Nat) {o : Nat} (ho : o < 8) :
    byt (present_decrypt_permutation p_text) o =
      BITVAL (byt p_text (2 * (0 % 4) + o / 4)) (0 / 4 + 2 * (o % 4)) +
      BITVAL (byt p_text (2 * (1 % 4) + o / 4)) (1 / 4 + 2 * (o % 4)) * 2 +
      BITVAL (byt p_text (2 * (2 % 4) + o / 4)) (2 / 4 + 2 * (o % 4)) * 4 +
      BITVAL (byt p_text (2 * (3 % 4) + o / 4)) (3 / 4 + 2 * (o % 4)) * 8 +
      BITVAL (byt p_text (2 * (4 % 4) + o / 4)) (4 / 4 + 2 * (o % 4)) * 16 +
      BITVAL (byt p_text (2 * (5 % 4) + o / 4)) (5 / 4 + 2 * (o % 4)) * 32 +
      BITVAL (byt p_text (2 * (6 % 4) + o / 4)) (6 / 4 + 2 * (o % 4)) * 64 +
      BITVAL (byt p_text (2 * (7 % 4) + o / 4)) (7 / 4 + 2 * (o % 4)) * 128 := by
  simp only [present_decrypt_permutation, PRESENT_CRYPT_SIZE]
  rw [byt_map_range ho]
  exact perm_fold_eq _ (fun j => BITVAL_le_one _ _)

theorem stateBit_encPerm (t : List Nat) {i : Nat} (hi : i < 64) :
    stateBit (present_encrypt_permutation t) i = stateBit t (encSrc i) := by
  have hdiv : i / 8 < 8 := by omega
  have hj : i % 8 < 8 := by omega
  simp only [stateBit]
  rw [encPerm_byte_sum t hdiv]
  have e1 : encSrc i / 8 = i % 8 / 2 + 4 * (i / 8 % 2) := by
    simp only [encSrc]
    omega
  have e2 : encSrc i % 8 = 4 * (i % 8 % 2) + i / 8 / 2 := by
    simp only [encSrc]
    omega
  rw [e1, e2]
  simp only [BITVAL_eq]
  set o := i / 8 with ho
  set j := i % 8 with hjdef
  clear_value o j
  interval_cases j <;>
  · rw [Nat.testBit_to_div_mod, Nat.testBit_to_div_mod, decide_eq_decide]
    omega

theorem stateBit_decPerm (t : List Nat) {i : Nat} (hi : i < 64) :
    stateBit (present_decrypt_permutation t) i = stateBit t (decSrc i) := by
  have hdiv : i / 8 < 8 := by omega
  have hj : i % 8 < 8 := by omega
  simp only [stateBit]
  rw [decPerm_byte_sum t hdiv]
  have e1 : decSrc i / 8 = 2 * (i % 8 % 4) + i / 8 / 4 := by
    simp only [decSrc]
    omega
  have e2 : decSrc i % 8 = i % 8 / 4 + 2 * (i / 8 % 4) := by
    simp only [decSrc]
    omega
  rw [e1, e2]
  simp only [BITVAL_eq]
  set o := i / 8 with ho
  set j := i % 8 with hjdef
  clear_value o j
  interval_cases j <;>
  · rw [Nat.testBit_to_div_mod, Nat.testBit_to_div_mod, decide_eq_decide]
    omega

theorem encSrc_lt : ∀ i, i < 64 → encSrc i < 64 := by decide

theorem decSrc_lt : ∀ i, i < 64 → decSrc i < 64 := by decide

theorem encSrc_decSrc : ∀ i, i < 64 → encSrc (decSrc i) = i := by decide

theorem decSrc_encSrc : ∀ i, i < 64 → decSrc (encSrc i) = i := by decide

theorem encSrc_P_enc : ∀ i, i < 64 → encSrc (P_enc i) = i := by decide

theorem decSrc_P_dec : ∀ i, i < 64 → decSrc (P_dec i) = i := by decide

theorem P_enc_lt : ∀ i, i < 64 → P_enc i < 64 := by decide

theorem P_dec_lt : ∀ i, i < 64 → P_dec i < 64 := by decide

theorem encrypt_permutation_valid (p_text : List Nat) :
    ValidBuf 8 (present_encrypt_permutation p_text) := by
  constructor
  · simp [present_encrypt_permutation, PRESENT_CRYPT_SIZE]
  · intro b hb
    simp only [present_encrypt_permutation, PRESENT_CRYPT_SIZE, List.mem_map] at hb
    obtain ⟨o, _, rfl⟩ := hb
    rw [show List.range 8 = [0, 1, 2, 3, 4, 5, 6, 7] from rfl]
    simp only [List.foldl]
    exact Nat.mod_lt _ (by norm_num)

theorem decrypt_permutation_valid (p_text : List Nat) :
    ValidBuf 8 (present_decrypt_permutation p_text) := by
  constructor
  · simp [present_decrypt_permutation, PRESENT_CRYPT_SIZE]
  · intro b hb
    simp only [present_decrypt_permutation, PRESENT_CRYPT_SIZE, List.mem_map] at hb
    obtain ⟨o, _, rfl⟩ := hb
    rw [show List.range 8 = [0, 1, 2, 3, 4, 5, 6, 7] from rfl]
    simp only [List.foldl]
    exact Nat.mod_lt _ (by norm_num)

theorem state_eq_of_bits {s s' : List Nat} (hs : ValidBuf 8 s) (hs' : ValidBuf 8 s')
    (h : ∀ i, i < 64 → stateBit s i = stateBit s' i) : s = s' := by
  apply List.ext_getElem
  · rw [hs.1, hs'.1]
  · intro o h1 h2
    apply Nat.eq_of_testBit_eq
    intro b
    rcases Nat.lt_or_ge b 8 with hb | hb
    · have hlen := hs.1
      have ho : o < 8 := by omega
      have hbit := h (8 * o + b) (by omega)
      simp only [stateBit] at hbit
      rw [show (8 * o + b) / 8 = o by omega, show (8 * o + b) % 8 = b by omega,
        byt_eq_getElem h1, byt_eq_getElem h2] at hbit
      exact hbit
    · have l1 : s[o] < 256 := hs.2 _ (s.getElem_mem h1)
      have l2 : s'[o] < 256 := hs'.2 _ (s'.getElem_mem h2)
      have hpow : (256 : Nat) ≤ 2 ^ b := by
        calc (256 : Nat) = 2 ^ 8 := by norm_num
          _ ≤ 2 ^ b := Nat.pow_le_pow_right (by norm_num) hb
      have e1 : s[o].testBit b = false := Nat.testBit_lt_two_pow (lt_of_lt_of_le l1 hpow)
      have e2 : s'[o].testBit b = false := Nat.testBit_lt_two_pow (lt_of_lt_of_le l2 hpow)
      rw [e1, e2]

theorem decPerm_encPerm (t : List Nat) (ht : ValidBuf 8 t) :
    present_decrypt_permutation (present_encrypt_permutation t) = t := by
  apply state_eq_of_bits (decrypt_permutation_valid _) ht
  intro i hi
  rw [stateBit_decPerm _ hi, stateBit_encPerm _ (decSrc_lt i hi), encSrc_decSrc i hi]

theorem encPerm_decPerm (t : List Nat) (ht : ValidBuf 8 t) :
    present_encrypt_permutation (present_decrypt_permutation t) = t := by
  apply state_eq_of_bits (encrypt_permutation_valid _) ht
  intro i hi
  rw [stateBit_encPerm _ hi, stateBit_decPerm _ (encSrc_lt i hi), decSrc_encSrc i hi]

theorem substitution_byte_lt (p_sbox : List Nat) (b : Nat) :
    present_substitution_byte p_sbox b < 256 := by
  simp only [present_substitution_byte]
  exact Nat.mod_lt _ (by norm_num)

set_option maxRecDepth 4000 in
theorem substitution_byte_inv_enc : ∀ b, b < 256 →
    present_substitution_byte g_sbox_inv (present_substitution_byte g_sbox b) = b := by
  decide

set_option maxRecDepth 4000 in
theorem substitution_byte_inv_dec : ∀ b, b < 256 →
    present_substitution_byte g_sbox (present_substitution_byte g_sbox_inv b) = b := by
  decide

theorem map_cancel {f : Nat → Nat} (hf : ∀ b, b < 256 → f b = b) :
    ∀ {t : List Nat}, (∀ b ∈ t, b < 256) → t.map f = t := by
  intro t
  induction t with
  | nil => intro _; rfl
  | cons a l ih =>
      intro h
      rw [List.map_cons, hf a (h a (by simp)), ih (fun b hb => h b (by simp [hb]))]

theorem substitution_inv_enc {t : List Nat} (h : ∀ b ∈ t, b < 256) :
    present_substitution (present_substitution t PRESENT_OP_ENCRYPT) PRESENT_OP_DECRYPT = t := by
  simp only [present_substitution, List.map_map]
  exact map_cancel (fun b hb => by simpa using substitution_byte_inv_enc b hb) h

theorem substitution_inv_dec {t : List Nat} (h : ∀ b ∈ t, b < 256) :
    present_substitution (present_substitution t PRESENT_OP_DECRYPT) PRESENT_OP_ENCRYPT = t := by
  simp only [present_substitution, List.map_map]
  exact map_cancel (fun b hb => by simpa using substitution_byte_inv_dec b hb) h

theorem substitution_valid {n : Nat} {t : List Nat} (op : present_op_t) (h : ValidBuf n t) :
    ValidBuf n (present_substitution t op) := by
  constructor
  · simp [present_substitution, h.1]
  · intro b hb
    simp only [present_substitution, List.mem_map] at hb
    obtain ⟨a, _, rfl⟩ := hb
    exact substitution_byte_lt _ _

theorem add_key_length (p_text p_key : List Nat) :
    (present_add_key p_text p_key).length = 8 := by
  simp [present_add_key, PRESENT_CRYPT_SIZE]

theorem add_key_valid (p_text p_key : List Nat) :
    ValidBuf 8 (present_add_key p_text p_key) := by
  constructor
  · exact add_key_length p_text p_key
  · intro b hb
    simp only [present_add_key, List.mem_map] at hb
    obtain ⟨a, _, rfl⟩ := hb
    exact Nat.mod_lt _ (by norm_num)

theorem add_key_byt (p_text p_key : List Nat) {i : Nat} (hi : i < 8) :
    byt (present_add_key p_text p_key) i = (byt p_text i ^^^ byt p_key (2 + i)) % 256 := by
  rw [present_add_key]
  simp only [PRESENT_CRYPT_SIZE, PRESENT_KEY_OFFSET, PRESENT_KEY_SIZE]
  norm_num
  rw [byt_map_range hi]

theorem add_key_add_key {p_text : List Nat} (p_key : List Nat) (ht : ValidBuf 8 p_text) :
    present_add_key (present_add_key p_text p_key) p_key = p_text := by
  apply List.ext_getElem
  · rw [add_key_length, ht.1]
  · intro i h1 h2
    have hlen := add_key_length (present_add_key p_text p_key) p_key
    have hi : i < 8 := by omega
    rw [← byt_eq_getElem h1, ← byt_eq_getElem h2]
    rw [add_key_byt _ _ hi, add_key_byt _ _ hi]
    exact xor_mod_cancel _ (byt_lt ht i)

theorem keyVal_lt {k : List Nat} (hk : ValidBuf 10 k) : keyVal k < 2 ^ 80 := by
  have h0 := byt_lt hk 0
  have h1 := byt_lt hk 1
  have h2 := byt_lt hk 2
  have h3 := byt_lt hk 3
  have h4 := byt_lt hk 4
  have h5 := byt_lt hk 5
  have h6 := byt_lt hk 6
  have h7 := byt_lt hk 7
  have h8 := byt_lt hk 8
  have h9 := byt_lt hk 9
  simp only [keyVal]
  omega

theorem byte_pair_eq {x : Nat} (y : Nat) (hx : x < 256) :
    x ||| (y <<< 8) = x + 256 * y := by
  rw [Nat.lor_comm, lor_eq_add _ _ (show x < 2 ^ 8 by omega)]
  omega

theorem rot_block_left (B : Nat) {B' : Nat} (h : B' < 65536) :
    ((B <<< 13) ||| (B' >>> 3)) % 65536 = B % 8 * 8192 + B' / 8 := by
  have h1 : B' >>> 3 < 2 ^ 13 := by
    rw [Nat.shiftRight_eq_div_pow]
    omega
  rw [lor_eq_add _ _ h1, Nat.shiftRight_eq_div_pow]
  omega

theorem rot_block_right (B : Nat) {B' : Nat} (h : B' < 65536) :
    ((B <<< 3) ||| (B' >>> 13)) % 65536 = B % 8192 * 8 + B' / 8192 := by
  have h1 : B' >>> 13 < 2 ^ 3 := by
    rw [Nat.shiftRight_eq_div_pow]
    omega
  rw [lor_eq_add _ _ h1, Nat.shiftRight_eq_div_pow]
  omega

theorem keyVal_key_bytes_of_blocks {b0 b1 b2 b3 b4 : Nat}
    (h0 : b0 < 65536) (h1 : b1 < 65536) (h2 : b2 < 65536) (h3 : b3 < 65536)
    (h4 : b4 < 65536) :
    keyVal (key_bytes_of_blocks b0 b1 b2 b3 b4) =
      b0 + 2 ^ 16 * b1 + 2 ^ 32 * b2 + 2 ^ 48 * b3 + 2 ^ 64 * b4 := by
  simp only [keyVal, key_bytes_of_blocks, byt, Nat.shiftRight_eq_div_pow]
  simp
  omega

theorem key_bytes_of_blocks_valid (b0 b1 b2 b3 b4 : Nat) :
    ValidBuf 10 (key_bytes_of_blocks b0 b1 b2 b3 b4) := by
  constructor
  · rfl
  · intro b hb
    simp only [key_bytes_of_blocks, List.mem_cons, List.not_mem_nil, or_false] at hb
    rcases hb with h | h | h | h | h | h | h | h | h | h <;> omega

theorem rotate_key_left_valid (k : List Nat) :
    ValidBuf 10 (present_rotate_key_left k) := by
  rw [present_rotate_key_left]
  exact key_bytes_of_blocks_valid _ _ _ _ _

theorem rotate_key_right_valid (k : List Nat) :
    ValidBuf 10 (present_rotate_key_right k) := by
  rw [present_rotate_key_right]
  exact key_bytes_of_blocks_valid _ _ _ _ _

set_option maxHeartbeats 1000000 in
theorem keyVal_rotL {k : List Nat} (hk : ValidBuf 10 k) :
    keyVal (present_rotate_key_left k) =
      ((keyVal k <<< 61) ||| (keyVal k >>> 19)) % 2 ^ 80 := by
  have h0 := byt_lt hk 0
  have h1 := byt_lt hk 1
  have h2 := byt_lt hk 2
  have h3 := byt_lt hk 3
  have h4 := byt_lt hk 4
  have h5 := byt_lt hk 5
  have h6 := byt_lt hk 6
  have h7 := byt_lt hk 7
  have h8 := byt_lt hk 8
  have h9 := byt_lt hk 9
  have hK : keyVal k < 2 ^ 80 := keyVal_lt hk
  have e0 : key_block k 0 = byt k 0 + 256 * byt k 1 := by
    rw [key_block]
    norm_num
    exact byte_pair_eq _ h0
  have e1 : key_block k 1 = byt k 2 + 256 * byt k 3 := by
    rw [key_block]
    norm_num
    exact byte_pair_eq _ h2
  have e2 : key_block k 2 = byt k 4 + 256 * byt k 5 := by
    rw [key_block]
    norm_num
    exact byte_pair_eq _ h4
  have e3 : key_block k 3 = byt k 6 + 256 * byt k 7 := by
    rw [key_block]
    norm_num
    exact byte_pair_eq _ h6
  have e4 : key_block k 4 = byt k 8 + 256 * byt k 9 := by
    rw [key_block]
    norm_num
    exact byte_pair_eq _ h8
  have hb0 : key_block k 0 < 65536 := by omega
  have hb1 : key_block k 1 < 65536 := by omega
  have hb2 : key_block k 2 < 65536 := by omega
  have hb3 : key_block k 3 < 65536 := by omega
  have hb4 : key_block k 4 < 65536 := by omega
  rw [present_rotate_key_left]
  rw [keyVal_key_bytes_of_blocks (Nat.mod_lt _ (by norm_num)) (Nat.mod_lt _ (by norm_num))
    (Nat.mod_lt _ (by norm_num)) (Nat.mod_lt _ (by norm_num)) (Nat.mod_lt _ (by norm_num))]
  rw [rot_block_left _ hb1, rot_block_left _ hb2, rot_block_left _ hb3,
    rot_block_left _ hb4, rot_block_left _ hb0]
  rw [e0, e1, e2, e3, e4]
  have hr : keyVal k >>> 19 < 2 ^ 61 := by
    rw [Nat.shiftRight_eq_div_pow]
    omega
  rw [lor_eq_add _ _ hr, Nat.shiftRight_eq_div_pow]
  have hQ : keyVal k / 2 ^ 19 =
      byt k 2 / 8 + 2 ^ 5 * byt k 3 + 2 ^ 13 * byt k 4 + 2 ^ 21 * byt k 5 +
      2 ^ 29 * byt k 6 + 2 ^ 37 * byt k 7 + 2 ^ 45 * byt k 8 + 2 ^ 53 * byt k 9 := by
    simp only [keyVal]
    omega
  have hmod : (keyVal k * 2 ^ 61 + keyVal k / 2 ^ 19) % 2 ^ 80 =
      keyVal k % 2 ^ 19 * 2 ^ 61 + keyVal k / 2 ^ 19 := by
    have hq61 : keyVal k / 2 ^ 19 < 2 ^ 61 := by omega
    omega
  have hR : keyVal k % 2 ^ 19 = byt k 0 + 2 ^ 8 * byt k 1 + 2 ^ 16 * (byt k 2 % 8) := by
    simp only [keyVal]
    omega
  rw [hmod, hQ, hR]
  omega

set_option maxHeartbeats 1000000 in
theorem keyVal_rotR {k : List Nat} (hk : ValidBuf 10 k) :
    keyVal (present_rotate_key_right k) =
      ((keyVal k <<< 19) ||| (keyVal k >>> 61)) % 2 ^ 80 := by
  have h0 := byt_lt hk 0
  have h1 := byt_lt hk 1
  have h2 := byt_lt hk 2
  have h3 := byt_lt hk 3
  have h4 := byt_lt hk 4
  have h5 := byt_lt hk 5
  have h6 := byt_lt hk 6
  have h7 := byt_lt hk 7
  have h8 := byt_lt hk 8
  have h9 := byt_lt hk 9
  have hK : keyVal k < 2 ^ 80 := keyVal_lt hk
  have e0 : key_block k 0 = byt k 0 + 256 * byt k 1 := by
    rw [key_block]
    norm_num
    exact byte_pair_eq _ h0
  have e1 : key_block k 1 = byt k 2 + 256 * byt k 3 := by
    rw [key_block]
    norm_num
    exact byte_pair_eq _ h2
  have e2 : key_block k 2 = byt k 4 + 256 * byt k 5 := by
    rw [key_block]
    norm_num
    exact byte_pair_eq _ h4
  have e3 : key_block k 3 = byt k 6 + 256 * byt k 7 := by
    rw [key_block]
    norm_num
    exact byte_pair_eq _ h6
  have e4 : key_block k 4 = byt k 8 + 256 * byt k 9 := by
    rw [key_block]
    norm_num
    exact byte_pair_eq _ h8
  have hb0 : key_block k 0 < 65536 := by omega
  have hb1 : key_block k 1 < 65536 := by omega
  have hb2 : key_block k 2 < 65536 := by omega
  have hb3 : key_block k 3 < 65536 := by omega
  have hb4 : key_block k 4 < 65536 := by omega
  rw [present_rotate_key_right]
  rw [keyVal_key_bytes_of_blocks (Nat.mod_lt _ (by norm_num)) (Nat.mod_lt _ (by norm_num))
    (Nat.mod_lt _ (by norm_num)) (Nat.mod_lt _ (by norm_num)) (Nat.mod_lt _ (by norm_num))]
  rw [rot_block_right _ hb3, rot_block_right _ hb4, rot_block_right _ hb0,
    rot_block_right _ hb1, rot_block_right _ hb2]
  rw [e0, e1, e2, e3, e4]
  have hr : keyVal k >>> 61 < 2 ^ 19 := by
    rw [Nat.shiftRight_eq_div_pow]
    omega
  rw [lor_eq_add _ _ hr, Nat.shiftRight_eq_div_pow]
  have hQ : keyVal k / 2 ^ 61 =
      byt k 7 / 32 + 2 ^ 3 * byt k 8 + 2 ^ 11 * byt k 9 := by
    simp only [keyVal]
    omega
  have hmod : (keyVal k * 2 ^ 19 + keyVal k / 2 ^ 61) % 2 ^ 80 =
      keyVal k % 2 ^ 61 * 2 ^ 19 + keyVal k / 2 ^ 61 := by
    have hq19 : keyVal k / 2 ^ 61 < 2 ^ 19 := by omega
    omega
  have hR : keyVal k % 2 ^ 61 =
      byt k 0 + 2 ^ 8 * byt k 1 + 2 ^ 16 * byt k 2 + 2 ^ 24 * byt k 3 + 2 ^ 32 * byt k 4 +
      2 ^ 40 * byt k 5 + 2 ^ 48 * byt k 6 + 2 ^ 56 * (byt k 7 % 32) := by
    simp only [keyVal]
    omega
  rw [hmod, hQ, hR]
  omega

theorem keyVal_inj {k k2 : List Nat} (hk : ValidBuf 10 k) (hk2 : ValidBuf 10 k2)
    (h : keyVal k = keyVal k2) : k = k2 := by
  have a0 := byt_lt hk 0
  have a1 := byt_lt hk 1
  have a2 := byt_lt hk 2
  have a3 := byt_lt hk 3
  have a4 := byt_lt hk 4
  have a5 := byt_lt hk 5
  have a6 := byt_lt hk 6
  have a7 := byt_lt hk 7
  have a8 := byt_lt hk 8
  have a9 := byt_lt hk 9
  have c0 := byt_lt hk2 0
  have c1 := byt_lt hk2 1
  have c2 := byt_lt hk2 2
  have c3 := byt_lt hk2 3
  have c4 := byt_lt hk2 4
  have c5 := byt_lt hk2 5
  have c6 := byt_lt hk2 6
  have c7 := byt_lt hk2 7
  have c8 := byt_lt hk2 8
  have c9 := byt_lt hk2 9
  simp only [keyVal] at h
  apply List.ext_getElem
  · rw [hk.1, hk2.1]
  · intro i hi1 hi2
    have hlen := hk.1
    have hi : i < 10 := by omega
    rw [← byt_eq_getElem hi1, ← byt_eq_getElem hi2]
    interval_cases i <;> omega

set_option maxHeartbeats 1000000 in
theorem rotR_rotL {k : List Nat} (hk : ValidBuf 10 k) :
    present_rotate_key_right (present_rotate_key_left k) = k := by
  have hK : keyVal k < 2 ^ 80 := keyVal_lt hk
  apply keyVal_inj (rotate_key_right_valid _) hk
  rw [keyVal_rotR (rotate_key_left_valid k), keyVal_rotL hk]
  have hr : keyVal k >>> 19 < 2 ^ 61 := by
    rw [Nat.shiftRight_eq_div_pow]
    omega
  rw [lor_eq_add _ _ hr, Nat.shiftRight_eq_div_pow]
  have hr2 : ((keyVal k * 2 ^ 61 + keyVal k / 2 ^ 19) % 2 ^ 80) >>> 61 < 2 ^ 19 := by
    rw [Nat.shiftRight_eq_div_pow]
    have := Nat.mod_lt (keyVal k * 2 ^ 61 + keyVal k / 2 ^ 19) (show 0 < 2 ^ 80 by norm_num)
    omega
  rw [lor_eq_add _ _ hr2, Nat.shiftRight_eq_div_pow]
  have hsplit : (keyVal k * 2 ^ 61 + keyVal k / 2 ^ 19) % 2 ^ 80 =
      keyVal k % 2 ^ 19 * 2 ^ 61 + keyVal k / 2 ^ 19 := by
    have : keyVal k / 2 ^ 19 < 2 ^ 61 := by omega
    omega
  rw [hsplit]
  have hq : keyVal k / 2 ^ 19 < 2 ^ 61 := by omega
  have hdiv : (keyVal k % 2 ^ 19 * 2 ^ 61 + keyVal k / 2 ^ 19) / 2 ^ 61 =
      keyVal k % 2 ^ 19 := by
    omega
  rw [hdiv]
  omega

set_option maxHeartbeats 1000000 in
theorem rotL_rotR {k : List Nat} (hk : ValidBuf 10 k) :
    present_rotate_key_left (present_rotate_key_right k) = k := by
  have hK : keyVal k < 2 ^ 80 := keyVal_lt hk
  apply keyVal_inj (rotate_key_left_valid _) hk
  rw [keyVal_rotL (rotate_key_right_valid k), keyVal_rotR hk]
  have hr : keyVal k >>> 61 < 2 ^ 19 := by
    rw [Nat.shiftRight_eq_div_pow]
    omega
  rw [lor_eq_add _ _ hr, Nat.shiftRight_eq_div_pow]
  have hr2 : ((keyVal k * 2 ^ 19 + keyVal k / 2 ^ 61) % 2 ^ 80) >>> 19 < 2 ^ 61 := by
    rw [Nat.shiftRight_eq_div_pow]
    have := Nat.mod_lt (keyVal k * 2 ^ 19 + keyVal k / 2 ^ 61) (show 0 < 2 ^ 80 by norm_num)
    omega
  rw [lor_eq_add _ _ hr2, Nat.shiftRight_eq_div_pow]
  have hsplit : (keyVal k * 2 ^ 19 + keyVal k / 2 ^ 61) % 2 ^ 80 =
      keyVal k % 2 ^ 61 * 2 ^ 19 + keyVal k / 2 ^ 61 := by
    have : keyVal k / 2 ^ 61 < 2 ^ 19 := by omega
    omega
  rw [hsplit]
  have hq : keyVal k / 2 ^ 61 < 2 ^ 19 := by omega
  have hdiv : (keyVal k % 2 ^ 61 * 2 ^ 19 + keyVal k / 2 ^ 61) / 2 ^ 19 =
      keyVal k % 2 ^ 61 := by
    omega
  rw [hdiv]
  omega

set_option maxRecDepth 4000 in
theorem and_hi : ∀ b, b < 256 → (b &&& 0xF0) >>> 4 = b / 16 := by decide

set_option maxRecDepth 4000 in
theorem and_lo : ∀ b, b < 256 → b &&& 0x0F = b % 16 := by decide

theorem sbox_lookup_lt_g (n : Nat) : sbox_lookup g_sbox n < 16 := by
  rcases Nat.lt_or_ge n 16 with h | h
  · exact (by decide : ∀ m, m < 16 → sbox_lookup g_sbox m < 16) n h
  · rw [sbox_lookup, List.getD_eq_getElem?_getD, List.getElem?_eq_none (by simp [g_sbox]; omega)]
    simp

theorem sbox_lookup_lt_ginv (n : Nat) : sbox_lookup g_sbox_inv n < 16 := by
  rcases Nat.lt_or_ge n 16 with h | h
  · exact (by decide : ∀ m, m < 16 → sbox_lookup g_sbox_inv m < 16) n h
  · rw [sbox_lookup, List.getD_eq_getElem?_getD, List.getElem?_eq_none (by simp [g_sbox_inv]; omega)]
    simp

theorem sbox_inv_sbox : ∀ n, n < 16 →
    sbox_lookup g_sbox_inv (sbox_lookup g_sbox n) = n := by decide

theorem sbox_sbox_inv : ∀ n, n < 16 →
    sbox_lookup g_sbox (sbox_lookup g_sbox_inv n) = n := by decide

theorem nibble_pack {hn ln : Nat} (h1 : hn < 16) (h2 : ln < 16) :
    ((hn <<< 4) ||| ln) % 256 = 16 * hn + ln := by
  rw [lor_eq_add _ _ (show ln < 2 ^ 4 by omega)]
  omega

theorem byt_set_eq {p : List Nat} {i : Nat} (b : Nat) (h : i < p.length) :
    byt (p.set i b) i = b := by
  rw [byt_eq_getElem (by simpa using h)]
  simp

theorem byt_set_ne {p : List Nat} {i j : Nat} (b : Nat) (h : i ≠ j) :
    byt (p.set i b) j = byt p j := by
  simp [byt, List.getD_eq_getElem?_getD, List.getElem?_set_ne h]

theorem ext_byt {p q : List Nat} (hp : p.length = 10) (hq : q.length = 10)
    (h : ∀ i, i < 10 → byt p i = byt q i) : p = q := by
  apply List.ext_getElem
  · omega
  · intro i h1 h2
    rw [← byt_eq_getElem h1, ← byt_eq_getElem h2]
    exact h i (by omega)

theorem set_valid {n : Nat} {p : List Nat} (i : Nat) {b : Nat} (hb : b < 256)
    (hp : ValidBuf n p) : ValidBuf n (p.set i b) := by
  constructor
  · simp [hp.1]
  · intro x hx
    rcases List.mem_or_eq_of_mem_set hx with h | h
    · exact hp.2 _ h
    · omega

theorem update_encrypt_key_eq (p_key : List Nat) (round_counter : Nat) :
    present_update_encrypt_key p_key round_counter =
      key_xor_step (key_sbox_step g_sbox (present_rotate_key_left p_key)) round_counter := rfl

theorem update_decrypt_key_eq (p_key : List Nat) (round_counter : Nat) :
    present_update_decrypt_key p_key round_counter =
      present_rotate_key_right (key_sbox_step g_sbox_inv (key_xor_step p_key round_counter)) := rfl

theorem key_sbox_step_valid {p_sbox k : List Nat} (hk : ValidBuf 10 k) :
    ValidBuf 10 (key_sbox_step p_sbox k) :=
  set_valid _ (Nat.mod_lt _ (by norm_num)) hk

theorem key_xor_step_valid {k : List Nat} (r : Nat) (hk : ValidBuf 10 k) :
    ValidBuf 10 (key_xor_step k r) :=
  set_valid _ (Nat.mod_lt _ (by norm_num)) (set_valid _ (Nat.mod_lt _ (by norm_num)) hk)

theorem key_xor_step_cancel {k : List Nat} (r : Nat) (hk : ValidBuf 10 k) :
    key_xor_step (key_xor_step k r) r = k := by
  have hb1 : byt k 1 < 256 := byt_lt hk 1
  have hb2 : byt k 2 < 256 := byt_lt hk 2
  have hlen : k.length = 10 := hk.1
  simp only [key_xor_step]
  apply ext_byt (by simp [hlen]) hlen
  intro i hi
  interval_cases i <;>
    simp [byt_set_eq, byt_set_ne, hlen, xor_mod_cancel _ hb1, xor_mod_cancel _ hb2]

theorem key_sbox_step_cancel_enc {k : List Nat} (hk : ValidBuf 10 k) :
    key_sbox_step g_sbox_inv (key_sbox_step g_sbox k) = k := by
  have hb9 : byt k 9 < 256 := byt_lt hk 9
  have hlen : k.length = 10 := hk.1
  have hs : sbox_lookup g_sbox (byt k 9 / 16) < 16 := sbox_lookup_lt_g _
  simp only [key_sbox_step, PRESENT_KEY_SIZE]
  norm_num
  apply ext_byt (by simp [hlen]) hlen
  intro i hi
  have e9 : byt (k.set 9
      (((sbox_lookup g_sbox ((byt k 9 &&& 240) >>> 4)) <<< 4 ||| (byt k 9 &&& 15)) % 256)) 9
      = 16 * sbox_lookup g_sbox (byt k 9 / 16) + byt k 9 % 16 := by
    rw [byt_set_eq _ (by omega), and_hi _ hb9, and_lo _ hb9, nibble_pack hs (by omega)]
  interval_cases i
  · simp [byt_set_ne]
  · simp [byt_set_ne]
  · simp [byt_set_ne]
  · simp [byt_set_ne]
  · simp [byt_set_ne]
  · simp [byt_set_ne]
  · simp [byt_set_ne]
  · simp [byt_set_ne]
  · simp [byt_set_ne]
  · rw [byt_set_eq _ (by simp [hlen]), e9]
    rw [and_hi _ (by omega), and_lo _ (by omega)]
    have d1 : (16 * sbox_lookup g_sbox (byt k 9 / 16) + byt k 9 % 16) / 16 =
        sbox_lookup g_sbox (byt k 9 / 16) := by omega
    have d2 : (16 * sbox_lookup g_sbox (byt k 9 / 16) + byt k 9 % 16) % 16 =
        byt k 9 % 16 := by omega
    rw [d1, d2, sbox_inv_sbox _ (by omega)]
    rw [nibble_pack (by omega) (by omega)]
    omega

theorem key_sbox_step_cancel_dec {k : List Nat} (hk : ValidBuf 10 k) :
    key_sbox_step g_sbox (key_sbox_step g_sbox_inv k) = k := by
  have hb9 : byt k 9 < 256 := byt_lt hk 9
  have hlen : k.length = 10 := hk.1
  have hs : sbox_lookup g_sbox_inv (byt k 9 / 16) < 16 := sbox_lookup_lt_ginv _
  simp only [key_sbox_step, PRESENT_KEY_SIZE]
  norm_num
  apply ext_byt (by simp [hlen]) hlen
  intro i hi
  have e9 : byt (k.set 9
      (((sbox_lookup g_sbox_inv ((byt k 9 &&& 240) >>> 4)) <<< 4 ||| (byt k 9 &&& 15)) % 256)) 9
      = 16 * sbox_lookup g_sbox_inv (byt k 9 / 16) + byt k 9 % 16 := by
    rw [byt_set_eq _ (by omega), and_hi _ hb9, and_lo _ hb9, nibble_pack hs (by omega)]
  interval_cases i
  · simp [byt_set_ne]
  · simp [byt_set_ne]
  · simp [byt_set_ne]
  · simp [byt_set_ne]
  · simp [byt_set_ne]
  · simp [byt_set_ne]
  · simp [byt_set_ne]
  · simp [byt_set_ne]
  · simp [byt_set_ne]
  · rw [byt_set_eq _ (by simp [hlen]), e9]
    rw [and_hi _ (by omega), and_lo _ (by omega)]
    have d1 : (16 * sbox_lookup g_sbox_inv (byt k 9 / 16) + byt k 9 % 16) / 16 =
        sbox_lookup g_sbox_inv (byt k 9 / 16) := by omega
    have d2 : (16 * sbox_lookup g_sbox_inv (byt k 9 / 16) + byt k 9 % 16) % 16 =
        byt k 9 % 16 := by omega
    rw [d1, d2, sbox_sbox_inv _ (by omega)]
    rw [nibble_pack (by omega) (by omega)]
    omega

theorem update_encrypt_key_valid {k : List Nat} (r : Nat) (hk : ValidBuf 10 k) :
    ValidBuf 10 (present_update_encrypt_key k r) := by
  rw [update_encrypt_key_eq]
  exact key_xor_step_valid r (key_sbox_step_valid (rotate_key_left_valid k))

theorem update_decrypt_key_valid {k : List Nat} (r : Nat) (hk : ValidBuf 10 k) :
    ValidBuf 10 (present_update_decrypt_key k r) := by
  rw [update_decrypt_key_eq]
  exact rotate_key_right_valid _

theorem update_decrypt_encrypt_key {k : List Nat} (r : Nat) (hk : ValidBuf 10 k) :
    present_update_decrypt_key (present_update_encrypt_key k r) r = k := by
  rw [update_encrypt_key_eq, update_decrypt_key_eq]
  rw [key_xor_step_cancel r (key_sbox_step_valid (rotate_key_left_valid k))]
  rw [key_sbox_step_cancel_enc (rotate_key_left_valid k)]
  exact rotR_rotL hk

theorem update_encrypt_decrypt_key {k : List Nat} (r : Nat) (hk : ValidBuf 10 k) :
    present_update_encrypt_key (present_update_decrypt_key k r) r = k := by
  rw [update_decrypt_key_eq, update_encrypt_key_eq]
  rw [rotL_rotR (key_sbox_step_valid (key_xor_step_valid r hk))]
  rw [key_sbox_step_cancel_dec (key_xor_step_valid r hk)]
  exact key_xor_step_cancel r hk

theorem perm_op_enc (t : List Nat) :
    present_permutation t PRESENT_OP_ENCRYPT = present_encrypt_permutation t := rfl

theorem perm_op_dec (t : List Nat) :
    present_permutation t PRESENT_OP_DECRYPT = present_decrypt_permutation t := rfl

theorem upd_op_enc (k : List Nat) (r : Nat) :
    present_update_key k r PRESENT_OP_ENCRYPT = present_update_encrypt_key k r := rfl

theorem upd_op_dec (k : List Nat) (r : Nat) :
    present_update_key k r PRESENT_OP_DECRYPT = present_update_decrypt_key k r := rfl

theorem encrypt_loop_succ : ∀ (n r : Nat) (t k : List Nat),
    present_encrypt_loop (n + 1) r t k =
      (present_permutation (present_substitution (present_add_key
          (present_encrypt_loop n r t k).1 (present_encrypt_loop n r t k).2)
          PRESENT_OP_ENCRYPT) PRESENT_OP_ENCRYPT,
       present_update_encrypt_key (present_encrypt_loop n r t k).2 (r + n)) := by
  intro n
  induction n with
  | zero =>
      intro r t k
      simp [present_encrypt_loop, upd_op_enc]
  | succ m ih =>
      intro r t k
      have h1 : present_encrypt_loop (m + 1 + 1) r t k =
          present_encrypt_loop (m + 1) (r + 1)
            (present_permutation (present_substitution (present_add_key t k)
              PRESENT_OP_ENCRYPT) PRESENT_OP_ENCRYPT)
            (present_update_key k r PRESENT_OP_ENCRYPT) := rfl
      have h2 : present_encrypt_loop (m + 1) r t k =
          present_encrypt_loop m (r + 1)
            (present_permutation (present_substitution (present_add_key t k)
              PRESENT_OP_ENCRYPT) PRESENT_OP_ENCRYPT)
            (present_update_key k r PRESENT_OP_ENCRYPT) := rfl
      rw [h1, ih, h2, show r + 1 + m = r + (m + 1) by omega]

theorem key_schedule_succ : ∀ (n r : Nat) (k : List Nat),
    present_key_schedule (n + 1) r k =
      present_update_encrypt_key (present_key_schedule n r k) (r + n) := by
  intro n
  induction n with
  | zero =>
      intro r k
      simp [present_key_schedule, upd_op_enc]
  | succ m ih =>
      intro r k
      have h1 : present_key_schedule (m + 1 + 1) r k =
          present_key_schedule (m + 1) (r + 1) (present_update_key k r PRESENT_OP_ENCRYPT) := rfl
      have h2 : present_key_schedule (m + 1) r k =
          present_key_schedule m (r + 1) (present_update_key k r PRESENT_OP_ENCRYPT) := rfl
      rw [h1, ih, h2, show r + 1 + m = r + (m + 1) by omega]

theorem encrypt_loop_snd : ∀ (n r : Nat) (t k : List Nat),
    (present_encrypt_loop n r t k).2 = present_key_schedule n r k := by
  intro n
  induction n with
  | zero =>
      intro r t k
      rfl
  | succ m ih =>
      intro r t k
      exact ih (r + 1) _ _

theorem key_schedule_valid : ∀ (n r : Nat) {k : List Nat}, ValidBuf 10 k →
    ValidBuf 10 (present_key_schedule n r k) := by
  intro n
  induction n with
  | zero =>
      intro r k hk
      exact hk
  | succ m ih =>
      intro r k hk
      exact ih (r + 1) (update_encrypt_key_valid r hk)

theorem encrypt_loop_valid : ∀ (n r : Nat) {t k : List Nat}, ValidBuf 8 t → ValidBuf 10 k →
    ValidBuf 8 (present_encrypt_loop n r t k).1 ∧
    ValidBuf 10 (present_encrypt_loop n r t k).2 := by
  intro n
  induction n with
  | zero =>
      intro r t k ht hk
      exact ⟨ht, hk⟩
  | succ m ih =>
      intro r t k ht hk
      exact ih (r + 1) (encrypt_permutation_valid _) (update_encrypt_key_valid r hk)

theorem decrypt_loop_encrypt_loop : ∀ (n r : Nat) {t k : List Nat},
    ValidBuf 8 t → ValidBuf 10 k →
    present_decrypt_loop n r (present_encrypt_loop n r t k).1 (present_encrypt_loop n r t k).2
      = (t, k) := by
  intro n
  induction n with
  | zero =>
      intro r t k ht hk
      rfl
  | succ m ih =>
      intro r t k ht hk
      have hT := (encrypt_loop_valid m r ht hk).1
      have hK := (encrypt_loop_valid m r ht hk).2
      rw [encrypt_loop_succ]
      simp only [present_decrypt_loop, perm_op_enc, perm_op_dec, upd_op_enc, upd_op_dec]
      rw [decPerm_encPerm _ (substitution_valid _ (add_key_valid _ _))]
      rw [substitution_inv_enc (add_key_valid (present_encrypt_loop m r t k).1
        (present_encrypt_loop m r t k).2).2]
      rw [update_decrypt_encrypt_key _ hK]
      rw [add_key_add_key _ hT]
      exact ih r ht hk

theorem encrypt_loop_decrypt_loop : ∀ (n r : Nat) {t k : List Nat},
    ValidBuf 8 t → ValidBuf 10 k →
    present_encrypt_loop n r
        (present_decrypt_loop n r t (present_key_schedule n r k)).1 k
      = (t, present_key_schedule n r k) ∧
    (present_decrypt_loop n r t (present_key_schedule n r k)).2 = k := by
  intro n
  induction n with
  | zero =>
      intro r t k ht hk
      exact ⟨rfl, rfl⟩
  | succ m ih =>
      intro r t k ht hk
      have hpermv : ValidBuf 8 (present_decrypt_permutation t) := decrypt_permutation_valid t
      have hsubv : ValidBuf 8 (present_substitution (present_decrypt_permutation t)
        PRESENT_OP_DECRYPT) := substitution_valid _ hpermv
      simp only [present_decrypt_loop, perm_op_enc, perm_op_dec, upd_op_enc, upd_op_dec]
      rw [key_schedule_succ]
      rw [update_decrypt_encrypt_key _ (key_schedule_valid m r hk)]
      obtain ⟨ihA, ihB⟩ := ih r (add_key_valid _ _) hk
      constructor
      · rw [encrypt_loop_succ, ihA]
        simp only [perm_op_enc]
        rw [add_key_add_key _ hsubv]
        rw [substitution_inv_dec hpermv.2]
        rw [encPerm_decPerm t ht]
      · exact ihB

theorem present_decrypt_encrypt {t k : List Nat} (ht : ValidBuf 8 t) (hk : ValidBuf 10 k) :
    present_decrypt (present_encrypt t k) k = t := by
  rw [present_encrypt, present_decrypt, present_generate_decrypt_key, ← encrypt_loop_snd]
  rw [add_key_add_key _ (encrypt_loop_valid PRESENT_ROUND_COUNT 1 ht hk).1]
  rw [decrypt_loop_encrypt_loop PRESENT_ROUND_COUNT 1 ht hk]

theorem present_encrypt_decrypt {t k : List Nat} (ht : ValidBuf 8 t) (hk : ValidBuf 10 k) :
    present_encrypt (present_decrypt t k) k = t := by
  rw [present_decrypt, present_generate_decrypt_key, present_encrypt]
  obtain ⟨hA, hB⟩ := encrypt_loop_decrypt_loop PRESENT_ROUND_COUNT 1 (add_key_valid t _) hk
  rw [hA]
  simp only []
  exact add_key_add_key _ ht

theorem encrypt_loop_mem_key : ∀ (n r : Nat) (m : present_call_mem),
    (present_encrypt_loop_mem n r m).key = m.key := by
  intro n
  induction n with
  | zero =>
      intro r m
      rfl
  | succ p ih =>
      intro r m
      exact ih (r + 1) _

theorem decrypt_loop_mem_key : ∀ (n r : Nat) (m : present_call_mem),
    (present_decrypt_loop_mem n r m).key = m.key := by
  intro n
  induction n with
  | zero =>
      intro r m
      rfl
  | succ p ih =>
      intro r m
      exact ih r _

theorem encrypt_loop_mem_spec : ∀ (n r : Nat) (m : present_call_mem),
    (present_encrypt_loop_mem n r m).text = (present_encrypt_loop n r m.text m.subkey).1 ∧
    (present_encrypt_loop_mem n r m).subkey = (present_encrypt_loop n r m.text m.subkey).2 := by
  intro n
  induction n with
  | zero =>
      intro r m
      exact ⟨rfl, rfl⟩
  | succ p ih =>
      intro r m
      exact ih (r + 1) _

theorem decrypt_loop_mem_spec : ∀ (n r : Nat) (m : present_call_mem),
    (present_decrypt_loop_mem n r m).text = (present_decrypt_loop n r m.text m.subkey).1 ∧
    (present_decrypt_loop_mem n r m).subkey = (present_decrypt_loop n r m.text m.subkey).2 := by
  intro n
  induction n with
  | zero =>
      intro r m
      exact ⟨rfl, rfl⟩
  | succ p ih =>
      intro r m
      exact ih r _

theorem encrypt_mem_key (p_text p_key : List Nat) :
    (present_encrypt_mem p_text p_key).key = p_key := by
  simp only [present_encrypt_mem]
  exact encrypt_loop_mem_key PRESENT_ROUND_COUNT 1 _

theorem decrypt_mem_key (p_text p_key : List Nat) :
    (present_decrypt_mem p_text p_key).key = p_key := by
  simp only [present_decrypt_mem]
  exact decrypt_loop_mem_key PRESENT_ROUND_COUNT 1 _

theorem encrypt_mem_text (p_text p_key : List Nat) :
    (present_encrypt_mem p_text p_key).text = present_encrypt p_text p_key := by
  simp only [present_encrypt_mem, present_encrypt]
  rw [(encrypt_loop_mem_spec PRESENT_ROUND_COUNT 1 _).1,
    (encrypt_loop_mem_spec PRESENT_ROUND_COUNT 1 _).2]

theorem decrypt_mem_text (p_text p_key : List Nat) :
    (present_decrypt_mem p_text p_key).text = present_decrypt p_text p_key := by
  simp only [present_decrypt_mem, present_decrypt]
  exact (decrypt_loop_mem_spec PRESENT_ROUND_COUNT 1 _).1

theorem keyVal_key_sbox_step {p_sbox k : List Nat} (hk : ValidBuf 10 k)
    (hsb : ∀ n, sbox_lookup p_sbox n < 16) :
    keyVal (key_sbox_step p_sbox k) =
      keyVal k % 2 ^ 76 + 2 ^ 76 * sbox_lookup p_sbox (keyVal k >>> 76) := by
  have hb0 := byt_lt hk 0
  have hb1 := byt_lt hk 1
  have hb2 := byt_lt hk 2
  have hb3 := byt_lt hk 3
  have hb4 := byt_lt hk 4
  have hb5 := byt_lt hk 5
  have hb6 := byt_lt hk 6
  have hb7 := byt_lt hk 7
  have hb8 := byt_lt hk 8
  have hb9 := byt_lt hk 9
  have hlen := hk.1
  have hidx : keyVal k >>> 76 = byt k 9 / 16 := by
    rw [Nat.shiftRight_eq_div_pow]
    simp only [keyVal]
    omega
  rw [hidx]
  simp only [key_sbox_step, PRESENT_KEY_SIZE]
  norm_num
  rw [and_hi _ hb9, and_lo _ hb9, nibble_pack (hsb _) (by omega)]
  have hs := hsb (byt k 9 / 16)
  simp only [keyVal, byt_set_eq _ (show 9 < k.length by omega),
    byt_set_ne _ (show (9 : Nat) ≠ 0 by omega), byt_set_ne _ (show (9 : Nat) ≠ 1 by omega),
    byt_set_ne _ (show (9 : Nat) ≠ 2 by omega), byt_set_ne _ (show (9 : Nat) ≠ 3 by omega),
    byt_set_ne _ (show (9 : Nat) ≠ 4 by omega), byt_set_ne _ (show (9 : Nat) ≠ 5 by omega),
    byt_set_ne _ (show (9 : Nat) ≠ 6 by omega), byt_set_ne _ (show (9 : Nat) ≠ 7 by omega),
    byt_set_ne _ (show (9 : Nat) ≠ 8 by omega)]
  omega

/-- C1: for the configured cipher (80-bit key, 31 rounds), decrypting an
encryption returns the original state and encrypting a decryption returns
the original state, for every 8-byte state and every 10-byte key; with a
fixed key, `present_encrypt` and `present_decrypt` are therefore mutually
inverse bijections on the 64-bit state space. -/
theorem c1_encrypt_decrypt_roundtrip (p_text p_key : List Nat)
    (ht : ValidBuf 8 p_text) (hk : ValidBuf 10 p_key) :
    present_decrypt (present_encrypt p_text p_key) p_key = p_text ∧
    present_encrypt (present_decrypt p_text p_key) p_key = p_text :=
  ⟨present_decrypt_encrypt ht hk, present_encrypt_decrypt ht hk⟩

/-- Witness for C1 at the all-zero state and key. -/
theorem c1_encrypt_decrypt_roundtrip_witness :
    ValidBuf 8 [0, 0, 0, 0, 0, 0, 0, 0] ∧
    ValidBuf 10 [0, 0, 0, 0, 0, 0, 0, 0, 0, 0] ∧
    (present_decrypt (present_encrypt [0, 0, 0, 0, 0, 0, 0, 0]
        [0, 0, 0, 0, 0, 0, 0, 0, 0, 0]) [0, 0, 0, 0, 0, 0, 0, 0, 0, 0] =
      [0, 0, 0, 0, 0, 0, 0, 0] ∧
     present_encrypt (present_decrypt [0, 0, 0, 0, 0, 0, 0, 0]
        [0, 0, 0, 0, 0, 0, 0, 0, 0, 0]) [0, 0, 0, 0, 0, 0, 0, 0, 0, 0] =
      [0, 0, 0, 0, 0, 0, 0, 0]) :=
  ⟨⟨rfl, by decide⟩, ⟨rfl, by decide⟩,
    c1_encrypt_decrypt_roundtrip _ _ ⟨rfl, by decide⟩ ⟨rfl, by decide⟩⟩

set_option maxRecDepth 100000 in
/-- C2: the four published 80-bit test vectors (bytes in the little-endian
on-the-wire order): `present_encrypt` maps each plaintext to the expected
ciphertext and `present_decrypt` maps the ciphertext back; in particular
the all-zero plaintext under the all-zero key encrypts to
45 84 22 7B 38 C1 79 55. -/
theorem c2_test_vectors :
    (present_encrypt [0x00, 0x00, 0x00, 0x00, 0x00, 0x00, 0x00, 0x00]
        [0x00, 0x00, 0x00, 0x00, 0x00, 0x00, 0x00, 0x00, 0x00, 0x00] =
        [0x45, 0x84, 0x22, 0x7B, 0x38, 0xC1, 0x79, 0x55] ∧
      present_decrypt [0x45, 0x84, 0x22, 0x7B, 0x38, 0xC1, 0x79, 0x55]
        [0x00, 0x00, 0x00, 0x00, 0x00, 0x00, 0x00, 0x00, 0x00, 0x00] =
        [0x00, 0x00, 0x00, 0x00, 0x00, 0x00, 0x00, 0x00]) ∧
    (present_encrypt [0x00, 0x00, 0x00, 0x00, 0x00, 0x00, 0x00, 0x00]
        [0xFF, 0xFF, 0xFF, 0xFF, 0xFF, 0xFF, 0xFF, 0xFF, 0xFF, 0xFF] =
        [0x49, 0x50, 0x94, 0xF5, 0xC0, 0x46, 0x2C, 0xE7] ∧
      present_decrypt [0x49, 0x50, 0x94, 0xF5, 0xC0, 0x46, 0x2C, 0xE7]
        [0xFF, 0xFF, 0xFF, 0xFF, 0xFF, 0xFF, 0xFF, 0xFF, 0xFF, 0xFF] =
        [0x00, 0x00, 0x00, 0x00, 0x00, 0x00, 0x00, 0x00]) ∧
    (present_encrypt [0xFF, 0xFF, 0xFF, 0xFF, 0xFF, 0xFF, 0xFF, 0xFF]
        [0x00, 0x00, 0x00, 0x00, 0x00, 0x00, 0x00, 0x00, 0x00, 0x00] =
        [0x7B, 0x41, 0x68, 0x2F, 0xC7, 0xFF, 0x12, 0xA1] ∧
      present_decrypt [0x7B, 0x41, 0x68, 0x2F, 0xC7, 0xFF, 0x12, 0xA1]
        [0x00, 0x00, 0x00, 0x00, 0x00, 0x00, 0x00, 0x00, 0x00, 0x00] =
        [0xFF, 0xFF, 0xFF, 0xFF, 0xFF, 0xFF, 0xFF, 0xFF]) ∧
    (present_encrypt [0xFF, 0xFF, 0xFF, 0xFF, 0xFF, 0xFF, 0xFF, 0xFF]
        [0xFF, 0xFF, 0xFF, 0xFF, 0xFF, 0xFF, 0xFF, 0xFF, 0xFF, 0xFF] =
        [0xD2, 0x10, 0x32, 0x21, 0xD3, 0xDC, 0x33, 0x33] ∧
      present_decrypt [0xD2, 0x10, 0x32, 0x21, 0xD3, 0xDC, 0x33, 0x33]
        [0xFF, 0xFF, 0xFF, 0xFF, 0xFF, 0xFF, 0xFF, 0xFF, 0xFF, 0xFF] =
        [0xFF, 0xFF, 0xFF, 0xFF, 0xFF, 0xFF, 0xFF, 0xFF]) := by
  have h1 : present_encrypt [0x00, 0x00, 0x00, 0x00, 0x00, 0x00, 0x00, 0x00]
      [0x00, 0x00, 0x00, 0x00, 0x00, 0x00, 0x00, 0x00, 0x00, 0x00] =
      [0x45, 0x84, 0x22, 0x7B, 0x38, 0xC1, 0x79, 0x55] := by decide
  have h2 : present_encrypt [0x00, 0x00, 0x00, 0x00, 0x00, 0x00, 0x00, 0x00]
      [0xFF, 0xFF, 0xFF, 0xFF, 0xFF, 0xFF, 0xFF, 0xFF, 0xFF, 0xFF] =
      [0x49, 0x50, 0x94, 0xF5, 0xC0, 0x46, 0x2C, 0xE7] := by decide
  have h3 : present_encrypt [0xFF, 0xFF, 0xFF, 0xFF, 0xFF, 0xFF, 0xFF, 0xFF]
      [0x00, 0x00, 0x00, 0x00, 0x00, 0x00, 0x00, 0x00, 0x00, 0x00] =
      [0x7B, 0x41, 0x68, 0x2F, 0xC7, 0xFF, 0x12, 0xA1] := by decide
  have h4 : present_encrypt [0xFF, 0xFF, 0xFF, 0xFF, 0xFF, 0xFF, 0xFF, 0xFF]
      [0xFF, 0xFF, 0xFF, 0xFF, 0xFF, 0xFF, 0xFF, 0xFF, 0xFF, 0xFF] =
      [0xD2, 0x10, 0x32, 0x21, 0xD3, 0xDC, 0x33, 0x33] := by decide
  refine ⟨⟨h1, ?_⟩, ⟨h2, ?_⟩, ⟨h3, ?_⟩, ⟨h4, ?_⟩⟩
  · rw [← h1]
    exact @present_encrypt_decrypt [0x00, 0x00, 0x00, 0x00, 0x00, 0x00, 0x00, 0x00]
      [0x00, 0x00, 0x00, 0x00, 0x00, 0x00, 0x00, 0x00, 0x00, 0x00] ⟨rfl, by decide⟩ ⟨rfl, by decide⟩
  · rw [← h2]
    exact @present_encrypt_decrypt [0x00, 0x00, 0x00, 0x00, 0x00, 0x00, 0x00, 0x00]
      [0xFF, 0xFF, 0xFF, 0xFF, 0xFF, 0xFF, 0xFF, 0xFF, 0xFF, 0xFF] ⟨rfl, by decide⟩ ⟨rfl, by decide⟩
  · rw [← h3]
    exact @present_encrypt_decrypt [0xFF, 0xFF, 0xFF, 0xFF, 0xFF, 0xFF, 0xFF, 0xFF]
      [0x00, 0x00, 0x00, 0x00, 0x00, 0x00, 0x00, 0x00, 0x00, 0x00] ⟨rfl, by decide⟩ ⟨rfl, by decide⟩
  · rw [← h4]
    exact @present_encrypt_decrypt [0xFF, 0xFF, 0xFF, 0xFF, 0xFF, 0xFF, 0xFF, 0xFF]
      [0xFF, 0xFF, 0xFF, 0xFF, 0xFF, 0xFF, 0xFF, 0xFF, 0xFF, 0xFF] ⟨rfl, by decide⟩ ⟨rfl, by decide⟩

set_option maxRecDepth 4000 in
/-- C3: the lookup tables equal the contract-fixed S and S-inverse tables,
and on every nibble the two are mutually inverse bijections of
`{0, ..., 15}`. -/
theorem c3_sbox_tables :
    g_sbox = [0x0C, 0x05, 0x06, 0x0B, 0x09, 0x00, 0x0A, 0x0D,
      0x03, 0x0E, 0x0F, 0x08, 0x04, 0x07, 0x01, 0x02] ∧
    g_sbox_inv = [0x05, 0x0E, 0x0F, 0x08, 0x0C, 0x01, 0x02, 0x0D,
      0x0B, 0x04, 0x06, 0x03, 0x00, 0x07, 0x09, 0x0A] ∧
    ∀ n, n < 16 →
      sbox_lookup g_sbox_inv (sbox_lookup g_sbox n) = n ∧
      sbox_lookup g_sbox (sbox_lookup g_sbox_inv n) = n ∧
      sbox_lookup g_sbox n < 16 ∧ sbox_lookup g_sbox_inv n < 16 := by
  decide

/-- Witness for C3 at nibble 3. -/
theorem c3_sbox_tables_witness :
    3 < 16 ∧ sbox_lookup g_sbox_inv (sbox_lookup g_sbox 3) = 3 :=
  ⟨by decide, (c3_sbox_tables.2.2 3 (by decide)).1⟩

/-- C4: for every 8-byte state, `present_encrypt_permutation` moves the
bit at input position `i` to output position `P(i) = (16 i) mod 63` for
`i < 63` and fixes position 63; in particular bits 0 and 63 are fixed
points. -/
theorem c4_encrypt_permutation_map (p_text : List Nat) :
    (∀ i, i < 64 →
      stateBit (present_encrypt_permutation p_text) (P_enc i) = stateBit p_text i) ∧
    stateBit (present_encrypt_permutation p_text) 0 = stateBit p_text 0 ∧
    stateBit (present_encrypt_permutation p_text) 63 = stateBit p_text 63 := by
  have h : ∀ i, i < 64 →
      stateBit (present_encrypt_permutation p_text) (P_enc i) = stateBit p_text i := by
    intro i hi
    rw [stateBit_encPerm _ (P_enc_lt i hi), encSrc_P_enc i hi]
  refine ⟨h, ?_, ?_⟩
  · have h0 := h 0 (by norm_num)
    simpa [P_enc] using h0
  · have h63 := h 63 (by norm_num)
    simpa [P_enc] using h63

/-- Witness for C4 at the state 01 02 03 04 05 06 07 08 and bit 5. -/
theorem c4_encrypt_permutation_map_witness :
    5 < 64 ∧ stateBit (present_encrypt_permutation [1, 2, 3, 4, 5, 6, 7, 8]) (P_enc 5) =
      stateBit [1, 2, 3, 4, 5, 6, 7, 8] 5 :=
  ⟨by decide, (c4_encrypt_permutation_map [1, 2, 3, 4, 5, 6, 7, 8]).1 5 (by decide)⟩

/-- C5: `present_decrypt_permutation` realises the inverse permutation
(input bit `j` moves to `(4 j) mod 63`, position 63 is fixed), and
composing it with `present_encrypt_permutation` is the identity on every
valid 8-byte state. -/
theorem c5_decrypt_permutation_inverse (p_text : List Nat) (ht : ValidBuf 8 p_text) :
    (∀ i, i < 64 →
      stateBit (present_decrypt_permutation p_text) (P_dec i) = stateBit p_text i) ∧
    present_decrypt_permutation (present_encrypt_permutation p_text) = p_text := by
  constructor
  · intro i hi
    rw [stateBit_decPerm _ (P_dec_lt i hi), decSrc_P_dec i hi]
  · exact decPerm_encPerm p_text ht

/-- Witness for C5 at the state 01 02 03 04 05 06 07 08. -/
theorem c5_decrypt_permutation_inverse_witness :
    ValidBuf 8 [1, 2, 3, 4, 5, 6, 7, 8] ∧
    present_decrypt_permutation (present_encrypt_permutation [1, 2, 3, 4, 5, 6, 7, 8]) =
      [1, 2, 3, 4, 5, 6, 7, 8] :=
  ⟨⟨rfl, by decide⟩,
    (c5_decrypt_permutation_inverse [1, 2, 3, 4, 5, 6, 7, 8] ⟨rfl, by decide⟩).2⟩

/-- C6: for every 10-byte key register and round counter in [1, 31],
`present_update_encrypt_key` performs exactly, in order, (1) the cyclic
61-bit left rotation of the 80-bit register — realised by the 13/3-bit
block decomposition of `present_rotate_key_left` and equal, at the integer
level, to `(K <<< 61) ||| (K >>> 19)` modulo 2^80 —, (2) the replacement
of the top nibble K[79..76] by `S(K[79..76])`, and (3) the XOR of the
round counter into bits K[19..15], which in little-endian byte terms is
`key[1] ^= r << 7; key[2] ^= r >> 1` (all other bytes unchanged). -/
theorem c6_update_encrypt_key_steps {k : List Nat} {r : Nat} (hk : ValidBuf 10 k)
    (hr1 : 1 ≤ r) (hr2 : r ≤ 31) :
    present_update_encrypt_key k r =
      key_xor_step (key_sbox_step g_sbox (present_rotate_key_left k)) r ∧
    keyVal (present_rotate_key_left k) =
      ((keyVal k <<< 61) ||| (keyVal k >>> 19)) % 2 ^ 80 ∧
    keyVal (key_sbox_step g_sbox (present_rotate_key_left k)) =
      keyVal (present_rotate_key_left k) % 2 ^ 76 +
        2 ^ 76 * sbox_lookup g_sbox (keyVal (present_rotate_key_left k) >>> 76) ∧
    byt (present_update_encrypt_key k r) 1 =
      (byt (key_sbox_step g_sbox (present_rotate_key_left k)) 1 ^^^ (r <<< 7)) % 256 ∧
    byt (present_update_encrypt_key k r) 2 =
      (byt (key_sbox_step g_sbox (present_rotate_key_left k)) 2 ^^^ (r >>> 1)) % 256 ∧
    ∀ i, i < 10 → i ≠ 1 → i ≠ 2 →
      byt (present_update_encrypt_key k r) i =
        byt (key_sbox_step g_sbox (present_rotate_key_left k)) i := by
  have hlen : (key_sbox_step g_sbox (present_rotate_key_left k)).length = 10 :=
    (key_sbox_step_valid (rotate_key_left_valid k)).1
  refine ⟨update_encrypt_key_eq k r, keyVal_rotL hk,
    keyVal_key_sbox_step (rotate_key_left_valid k) sbox_lookup_lt_g, ?_, ?_, ?_⟩
  · rw [update_encrypt_key_eq]
    simp only [key_xor_step]
    rw [byt_set_eq _ (by simp [hlen]), byt_set_ne _ (by omega)]
  · rw [update_encrypt_key_eq]
    simp only [key_xor_step]
    rw [byt_set_ne _ (by omega), byt_set_eq _ (by simp [hlen])]
  · intro i hi h1 h2
    rw [update_encrypt_key_eq]
    simp only [key_xor_step]
    rw [byt_set_ne _ (by omega), byt_set_ne _ (by omega)]

/-- Witness for C6 at the key 00 01 02 03 04 05 06 07 08 09 and round 1. -/
theorem c6_update_encrypt_key_steps_witness :
    ValidBuf 10 [0, 1, 2, 3, 4, 5, 6, 7, 8, 9] ∧ 1 ≤ (1 : Nat) ∧ (1 : Nat) ≤ 31 ∧
    present_update_encrypt_key [0, 1, 2, 3, 4, 5, 6, 7, 8, 9] 1 =
      key_xor_step (key_sbox_step g_sbox
        (present_rotate_key_left [0, 1, 2, 3, 4, 5, 6, 7, 8, 9])) 1 ∧
    keyVal (present_rotate_key_left [0, 1, 2, 3, 4, 5, 6, 7, 8, 9]) =
      ((keyVal [0, 1, 2, 3, 4, 5, 6, 7, 8, 9] <<< 61) |||
        (keyVal [0, 1, 2, 3, 4, 5, 6, 7, 8, 9] >>> 19)) % 2 ^ 80 :=
  ⟨⟨rfl, by decide⟩, by decide, by decide,
    (@c6_update_encrypt_key_steps [0, 1, 2, 3, 4, 5, 6, 7, 8, 9] 1
      ⟨rfl, by decide⟩ (by decide) (by decide)).1,
    (@c6_update_encrypt_key_steps [0, 1, 2, 3, 4, 5, 6, 7, 8, 9] 1
      ⟨rfl, by decide⟩ (by decide) (by decide)).2.1⟩

/-- C7: for every 10-byte key register and round counter in [1, 31], the
reverse key update inverts the forward key update. -/
theorem c7_update_key_roundtrip {k : List Nat} {r : Nat} (hk : ValidBuf 10 k)
    (hr1 : 1 ≤ r) (hr2 : r ≤ 31) :
    present_update_decrypt_key (present_update_encrypt_key k r) r = k :=
  update_decrypt_encrypt_key r hk

/-- Witness for C7 at the key 00 01 02 03 04 05 06 07 08 09 and round 3. -/
theorem c7_update_key_roundtrip_witness :
    ValidBuf 10 [0, 1, 2, 3, 4, 5, 6, 7, 8, 9] ∧ 1 ≤ (3 : Nat) ∧ (3 : Nat) ≤ 31 ∧
    present_update_decrypt_key
      (present_update_encrypt_key [0, 1, 2, 3, 4, 5, 6, 7, 8, 9] 3) 3 =
      [0, 1, 2, 3, 4, 5, 6, 7, 8, 9] :=
  ⟨⟨rfl, by decide⟩, by decide, by decide,
    @c7_update_key_roundtrip [0, 1, 2, 3, 4, 5, 6, 7, 8, 9] 3
      ⟨rfl, by decide⟩ (by decide) (by decide)⟩

/-- C8: neither `present_encrypt` nor `present_decrypt` modifies the
caller's key buffer: in the memory-level model of the calls (text buffer,
key buffer, local subkey buffer — each C statement writes exactly one of
them), the key-buffer contents after the call equal the contents before,
while the text buffer carries the ciphertext/plaintext computed by the
functional model. -/
theorem c8_key_buffer_unmodified (p_text p_key : List Nat) :
    (present_encrypt_mem p_text p_key).key = p_key ∧
    (present_decrypt_mem p_text p_key).key = p_key ∧
    (present_encrypt_mem p_text p_key).text = present_encrypt p_text p_key ∧
    (present_decrypt_mem p_text p_key).text = present_decrypt p_text p_key :=
  ⟨encrypt_mem_key p_text p_key, decrypt_mem_key p_text p_key,
    encrypt_mem_text p_text p_key, decrypt_mem_text p_text p_key⟩

/-- C9 evaluation: the round-count guards of `src/present.c` spell their
directive `#errror` (a non-directive, not the ISO `#error` directive), so
out-of-range round counts 0 and 32 are not guaranteed to be rejected at
translation time; had the guards used `#error`, an active guard would
reject the translation unit. -/
theorem c9_round_count_guard_eval :
    present_round_count_rejected 0 = false ∧
    present_round_count_rejected 32 = false ∧
    round_count_guard_directive = pp_directive.pp_non_directive ∧
    directive_rejects true pp_directive.pp_error = true :=
  ⟨rfl, rfl, rfl, rfl⟩

end Present

namespace PresentLib

open Present present_op_t

theorem permutation_eq (p_text : List Nat) :
    present_permutation p_text = Present.present_encrypt_permutation p_text := rfl

theorem substitution_eq (p_text : List Nat) :
    present_substitution p_text =
      Present.present_substitution p_text PRESENT_OP_ENCRYPT := rfl

theorem update_key_eq (p_key : List Nat) (round_counter : Nat) :
    present_update_key p_key round_counter =
      Present.present_update_encrypt_key p_key round_counter := rfl

theorem encrypt_loop_eq : ∀ (n r : Nat) (p_text p_key : List Nat),
    present_encrypt_loop n r p_text p_key =
      Present.present_encrypt_loop n r p_text p_key := by
  intro n
  induction n with
  | zero =>
      intro r p_text p_key
      rfl
  | succ m ih =>
      intro r p_text p_key
      exact ih (r + 1) _ _

theorem encrypt_eq (p_text p_key : List Nat) :
    present_encrypt p_text p_key = Present.present_encrypt p_text p_key := by
  simp only [present_encrypt, Present.present_encrypt]
  rw [encrypt_loop_eq]
  rfl

end PresentLib

namespace Present

/-- C10: the two source variants compute the same encryption function: on
every 8-byte state and 10-byte key, `present_encrypt` of
`lib/src/present.c` equals `present_encrypt` of `src/present.c`, and their
pLayer implementations produce identical output buffers — hence agree on
all 64 bit positions — on every state. -/
theorem c10_variant_equivalence :
    (∀ p_text : List Nat,
      PresentLib.present_permutation p_text = Present.present_encrypt_permutation p_text) ∧
    ∀ p_text p_key : List Nat,
      PresentLib.present_encrypt p_text p_key = Present.present_encrypt p_text p_key :=
  ⟨PresentLib.permutation_eq, PresentLib.encrypt_eq⟩

end Present
